import Mathlib

/-!
# addhandler: a shallow embedding of `main.go`

The program keeps two tables: `store.Data` (route path to submitted source text) and the
patterns of an `http.ServeMux` (route path to handler).  A submission is built into a Go
plugin, loaded, registered in the mux and then recorded in `store.Data`.

Everything the program obtains from outside the process (temporary directories, the file
system, the compiler, the plugin loader, captured stack traces) is read from a `World`
record, so every result below holds for all behaviours of the outside world.
-/

namespace Addhandler

/-! ## Go maps with string keys -/

/-- A Go `map[string]V`, kept as an association list with the most recent key first. -/
abbrev StrMap (V : Type) := List (String × V)

/-- The read `m[k]` in its two-result form: `none` when the key is absent. -/
def StrMap.get {V : Type} : StrMap V → String → Option V
  | [], _ => none
  | (k', v) :: rest, k => if k' = k then some v else StrMap.get rest k

/-- The map without the entry of `k`, as after `delete(m, k)`. -/
def StrMap.erase {V : Type} : StrMap V → String → StrMap V
  | [], _ => []
  | (k', v) :: rest, k => if k' = k then StrMap.erase rest k else (k', v) :: StrMap.erase rest k

/-- The assignment `m[k] = v`: any older entry of `k` is replaced. -/
def StrMap.set {V : Type} (m : StrMap V) (k : String) (v : V) : StrMap V :=
  (k, v) :: StrMap.erase m k

/-- The keys currently present in the map. -/
def StrMap.keys {V : Type} (m : StrMap V) : List String :=
  m.map Prod.fst

/-! ## Errors (`github.com/pkg/errors`) -/

/-- Error values as the program builds them. -/
inductive GoError where
  /-- An error produced by a library call (`os`, `os/exec`, `plugin`), with its `Error()` text. -/
  | plain (msg : String)
  /-- The result of `errors.New` or `errors.Errorf`: a message and the captured stack. -/
  | fundamental (msg : String) (stack : String)
  /-- The result of `errors.WithStack` on a non-nil error. -/
  | withStack (cause : GoError) (stack : String)
  deriving DecidableEq, Repr

/-- The method `Error()`. -/
def GoError.Error : GoError → String
  | .plain msg => msg
  | .fundamental msg _ => msg
  | .withStack cause _ => cause.Error

/-- The text of `fmt.Sprintf("%+v", err)`: the message followed by the recorded stacks. -/
def GoError.formatPlusV : GoError → String
  | .plain msg => msg
  | .fundamental msg stack => msg ++ stack
  | .withStack cause stack => cause.formatPlusV ++ stack

/-! ## Runtime types of plugin symbols -/

/-- Go types, as far as they are needed to describe the dynamic type of a plugin symbol. -/
inductive GoType where
  | basic (name : String)
  | named (pkgPath pkgName name : String)
  | pointer (elem : GoType)
  | slice (elem : GoType)
  | func (params results : List GoType)

/-- The type `func(http.ResponseWriter, *http.Request)` asserted at line 85. -/
def handlerType : GoType :=
  .func [.named "net/http" "http" "ResponseWriter",
         .pointer (.named "net/http" "http" "Request")] []

/-- Whether a dynamic type is identical to `handlerType`. -/
def isHandlerType : GoType → Bool
  | .func [.named pp1 pn1 n1, .pointer (.named pp2 pn2 n2)] [] =>
      pp1 == "net/http" && pn1 == "http" && n1 == "ResponseWriter" &&
      pp2 == "net/http" && pn2 == "http" && n2 == "Request"
  | _ => false

mutual
/-- The text printed for a type by the verb `%T`. -/
def GoType.describe : GoType → String
  | .basic name => name
  | .named _ pkgName name => pkgName ++ "." ++ name
  | .pointer elem => "*" ++ elem.describe
  | .slice elem => "[]" ++ elem.describe
  | .func params results =>
      "func(" ++ ", ".intercalate (GoType.describeAll params) ++ ")" ++
        (match GoType.describeAll results with
         | [] => ""
         | [r] => " " ++ r
         | rs => " (" ++ ", ".intercalate rs ++ ")")
/-- The descriptions of a list of types. -/
def GoType.describeAll : List GoType → List String
  | [] => []
  | t :: ts => t.describe :: GoType.describeAll ts
end

/-- A value of type `plugin.Symbol`: a dynamic type and the identity of the value. -/
structure Symbol where
  typ : GoType
  fn : Nat

/-- A loaded plugin, given by the result of `Lookup` for each symbol name. -/
structure Plugin where
  Lookup : String → Except GoError Symbol

/-! ## The outside world -/

/-- The error result of `cmd.CombinedOutput()` when it is not nil. -/
inductive RunError where
  /-- An `*exec.ExitError`: the compiler ran and exited unsuccessfully. -/
  | exit (msg : String)
  /-- Any other error, for instance the command could not be started. -/
  | other (err : GoError)

/-- Results of the calls that leave the process during one request. -/
structure World where
  /-- Result of `ioutil.TempDir("", "addhandler")`. -/
  TempDir : Except GoError String
  /-- Result of `ioutil.WriteFile(path, program, 0666)`, `none` for nil. -/
  WriteFile : String → String → Option GoError
  /-- Result of `cmd.CombinedOutput()` for the compiler run in the given directory. -/
  CombinedOutput : String → String × Option RunError
  /-- Result of `plugin.Open(path)`. -/
  Open : String → Except GoError Plugin
  /-- Rendering of the call stack captured by `pkg/errors` at the given source line. -/
  stack : Nat → String
  /-- Error result of `template.ExecuteTemplate`, `none` for nil. -/
  ExecuteTemplate : StrMap String → Option GoError

/-! ## Slash-separated paths (`path`, `path/filepath`) -/

/-- The elements of a path, that is, the pieces between its slashes. -/
def splitSlash : List Char → List (List Char)
  | [] => [[]]
  | c :: cs =>
    if c = '/' then [] :: splitSlash cs
    else
      match splitSlash cs with
      | [] => [[c]]
      | seg :: rest => (c :: seg) :: rest

/-- The elements written one after the other with a slash between neighbours. -/
def joinSlash : List (List Char) → List Char
  | [] => []
  | [seg] => seg
  | seg :: rest => seg ++ '/' :: joinSlash rest

/-- What `path.Clean` does with one element, given the elements kept so far (the last one
first): an empty element and `.` are dropped; `..` removes the last kept element, unless
there is none to remove, in which case it is dropped in a rooted path and kept in a
relative one; any other element is kept. -/
def cleanStep (rooted : Bool) (kept : List (List Char)) (seg : List Char) :
    List (List Char) :=
  if seg = [] ∨ seg = ['.'] then kept
  else if seg = ['.', '.'] then
    match kept with
    | top :: below => if top = ['.', '.'] then seg :: kept else below
    | [] => if rooted then [] else [seg]
  else seg :: kept

/-- The elements `path.Clean` keeps, in order. -/
def cleanElems (rooted : Bool) (path : List Char) : List (List Char) :=
  ((splitSlash path).foldl (cleanStep rooted) []).reverse

/-- The function `path.Clean`, which on this platform is also `filepath.Clean`. -/
def Clean (path : String) : String :=
  if path = "" then "."
  else if path.data.head? = some '/' then ⟨'/' :: joinSlash (cleanElems true path.data)⟩
  else if (cleanElems false path.data).isEmpty then "."
  else ⟨joinSlash (cleanElems false path.data)⟩

/-- The function `cleanPath` of `net/http`: the canonical form of a request path, rooted
and clean, with a trailing slash kept. -/
def cleanPath (p : String) : String :=
  if p = "" then "/"
  else
    let p1 := if p.data.head? = some '/' then p else "/" ++ p
    let np := Clean p1
    if p1.data.getLast? = some '/' ∧ np ≠ "/" then np ++ "/" else np

/-- The function `filepath.Join` for a directory and a file name: the two are joined by
a separator, an empty directory being left out, and the result is cleaned. -/
def Join (dir name : String) : String :=
  if dir ≠ "" then Clean (dir ++ "/" ++ name)
  else if name ≠ "" then Clean name
  else ""

/-- The function `build` (lines 102 to 124): the artifact path and the error, as in Go. -/
def build (w : World) (program : String) : String × Option GoError :=
  match w.TempDir with
  | .error err => ("", some (.withStack err (w.stack 106)))
  | .ok dir =>
    let path := Join dir "main.go"
    match w.WriteFile path program with
    | some err => ("", some (.withStack err (w.stack 110)))
    | none =>
      match w.CombinedOutput dir with
      | (output, some (.exit _)) => ("", some (.fundamental output (w.stack 118)))
      | (_, some (.other err)) => ("", some (.withStack err (w.stack 120)))
      | (_, none) => (Join dir "plugin.so", none)

/-! ## Handlers, the mux and the server state -/

/-- The handlers that can be registered in the mux of this program. -/
inductive Handler where
  /-- The value `rootHandler(store, templates)` (line 34). -/
  | rootHandler
  /-- The value `http.NotFoundHandler()` (line 35). -/
  | NotFoundHandler
  /-- The value `addhandler(store, mux)` (line 36). -/
  | addhandler
  /-- The value `http.HandlerFunc(h)` for the plugin function `h` (line 91). -/
  | HandlerFunc (fn : Nat)
  /-- The value `http.RedirectHandler(url, code)`, which the mux itself answers with. -/
  | RedirectHandler (url : String) (code : Nat)
  deriving DecidableEq, Repr

/-- The two tables shared by all requests: `store.Data` and the patterns of `mux`. -/
structure Server where
  Data : StrMap String
  mux : StrMap Handler
  deriving DecidableEq, Repr

/-- The method `mux.Handle(pattern, handler)`: it panics on an empty pattern and on a pattern
that is already registered, otherwise it records the entry. -/
def ServeMux.Handle (mux : StrMap Handler) (pattern : String) (handler : Handler) :
    Except String (StrMap Handler) :=
  if pattern = "" then .error "http: invalid pattern"
  else if (mux.get pattern).isSome then
    .error ("http: multiple registrations for " ++ pattern)
  else .ok (mux.set pattern handler)

/-- Whether a pattern names a rooted subtree, that is, ends in a slash. -/
def isSubtree (pattern : String) : Bool :=
  pattern.data.getLast? == some '/'

/-- Whether a registered pattern matches a request path: a pattern is matched by the equal
path, and a subtree pattern by every path it is a prefix of. -/
def pathMatch (pattern path : String) : Bool :=
  pattern == path || (isSubtree pattern && pattern.data.isPrefixOf path.data)

/-- The longest registered subtree pattern that is a prefix of the path. -/
def longestSubtree (path : String) : StrMap Handler → Option (String × Handler)
  | [] => none
  | (pattern, h) :: rest =>
    let best := longestSubtree path rest
    if isSubtree pattern && pattern.data.isPrefixOf path.data then
      match best with
      | some (bp, bh) => if bp.length < pattern.length then some (pattern, h) else some (bp, bh)
      | none => some (pattern, h)
    else best

/-- The method `mux.match`: an exact match first, then the longest matching subtree. -/
def ServeMux.matchPath (mux : StrMap Handler) (path : String) : Option Handler :=
  match mux.get path with
  | some h => some h
  | none => (longestSubtree path mux).map Prod.snd

/-- The field `mux.hosts`: whether some registered pattern does not begin with a slash and
so names a host. -/
def ServeMux.hosts (mux : StrMap Handler) : Bool :=
  mux.any (fun e => e.1.data.head? != some '/')

/-- The method `mux.handler`: when a pattern names a host, the host followed by the path
is matched first; then the path alone; with no match the not-found handler. -/
def ServeMux.handler (mux : StrMap Handler) (host path : String) : Handler :=
  match (if ServeMux.hosts mux then ServeMux.matchPath mux (host ++ path) else none) with
  | some h => h
  | none => (ServeMux.matchPath mux path).getD .NotFoundHandler

/-- The method `mux.shouldRedirectRLocked`: whether neither the path nor the host followed
by the path is registered, while one of them is registered with a slash appended. -/
def ServeMux.shouldRedirect (mux : StrMap Handler) (host path : String) : Bool :=
  if (mux.get path).isSome || (mux.get (host ++ path)).isSome then false
  else if path = "" then false
  else if (mux.get (path ++ "/")).isSome || (mux.get (host ++ path ++ "/")).isSome then
    path.data.getLast? != some '/'
  else false

/-! ## Requests and responses -/

/-- The parts of an `*http.Request` the program and the mux read: the method, the path
`r.URL.Path`, the host `r.Host`, that host without its port as `stripHostPort` returns it,
the host `r.URL.Host` of the request target, and the form values. -/
structure Request where
  Method : String
  Path : String
  Host : String
  HostName : String
  URLHost : String
  Form : StrMap String

/-- The method `r.FormValue(key)`: the first value of the key, or the empty string. -/
def Request.FormValue (r : Request) (key : String) : String :=
  (r.Form.get key).getD ""

/-- The host the mux matches patterns with: `r.Host` for a `CONNECT` request, and that
host without its port for any other request. -/
def Request.muxHost (r : Request) : String :=
  if r.Method = "CONNECT" then r.Host else r.HostName

/-- The method `mux.Handler`: the handler the mux runs for a request.  A `CONNECT` request
is matched on its path as it is.  Any other request is matched on its path only when the
path is in canonical form; otherwise the mux answers with a permanent redirect to the
canonical form and runs no registered handler.  In both cases a path that is registered
only with a slash appended is redirected there. -/
def ServeMux.Handler (mux : StrMap Handler) (r : Request) : Handler :=
  if r.Method = "CONNECT" then
    if ServeMux.shouldRedirect mux r.URLHost r.Path then .RedirectHandler (r.Path ++ "/") 301
    else ServeMux.handler mux r.Host r.Path
  else
    let host := r.HostName
    let path := cleanPath r.Path
    if ServeMux.shouldRedirect mux host path then .RedirectHandler (path ++ "/") 301
    else if path ≠ r.Path then .RedirectHandler path 301
    else ServeMux.handler mux host r.Path

/-- What a handler does with its `http.ResponseWriter`. -/
inductive Call where
  /-- The call `http.Error(w, body, code)`. -/
  | Error (body : String) (code : Nat)
  /-- The call `http.Redirect(w, r, url, code)`. -/
  | Redirect (url : String) (code : Nat)
  /-- The call `template.ExecuteTemplate(w, name, data)` with the content `data` has when read. -/
  | ExecuteTemplate (name : String) (data : StrMap String)
  /-- The reply of `http.NotFoundHandler()`. -/
  | NotFound
  /-- The run of a plugin function, whose writes are not known to the program. -/
  | Plugin (fn : Nat)
  /-- The handler panicked with the message; the server aborts the request. -/
  | Panic (msg : String)
  deriving DecidableEq, Repr

/-- The calls a handler made on its response writer, in order. -/
abbrev Response := List Call

/-- The status code of a response, when the first call fixes it. -/
def Response.status : Response → Option Nat
  | .Error _ code :: _ => some code
  | .Redirect _ code :: _ => some code
  | .NotFound :: _ => some 404
  | _ => none

/-- The `Location` target of a response that starts with a redirect. -/
def Response.target : Response → Option String
  | .Redirect url _ :: _ => some url
  | _ => none

/-- The body sent by a response that starts with `http.Error`, which prints the text and a
newline. -/
def Response.body : Response → Option String
  | .Error body _ :: _ => some (body ++ "\n")
  | _ => none

/-- The wrapper `handleError` (lines 48 to 54), applied to what the wrapped function wrote
and the error it returned. -/
def handleError (h : Response × Option GoError) : Response :=
  match h with
  | (calls, some err) => calls ++ [.Error err.formatPlusV 500]
  | (calls, none) => calls

/-- The handler `rootHandler` (lines 56 to 64) run without interruption. -/
def rootHandler (w : World) (s : Server) : Server × Response :=
  let data := s.Data
  (s, handleError
    ([.ExecuteTemplate "index.html" data],
      (w.ExecuteTemplate data).map (fun err => .withStack err (w.stack 62))))

/-- The load block of `addhandler` (lines 76 to 88): the function `h` obtained from the
plugin, or the error the handler returns. -/
def load (w : World) (path : String) : Except GoError Nat :=
  match w.Open path with
  | .error err => .error (.withStack err (w.stack 79))
  | .ok p =>
    match p.Lookup "H" with
    | .error err => .error (.withStack err (w.stack 83))
    | .ok sym =>
      if isHandlerType sym.typ then .ok sym.fn
      else .error (.fundamental
        ("H has type " ++ sym.typ.describe ++
          ", expected func(w http.ResponseWriter, r *http.Request)") (w.stack 87))

/-- The handler `addhandler` (lines 66 to 100) run without interruption. -/
def addhandler (w : World) (s : Server) (r : Request) : Server × Response :=
  let program := r.FormValue "program"
  match build w program with
  | (_, some err) => (s, handleError ([], some err))
  | (path, none) =>
    match load w path with
    | .error err => (s, handleError ([], some err))
    | .ok h =>
      match ServeMux.Handle s.mux path (.HandlerFunc h) with
      | .error msg => (s, handleError ([.Panic msg], none))
      | .ok mux =>
        ({ Data := s.Data.set path program, mux := mux },
          handleError ([.Redirect path 302], none))

/-- The state set up by `main` (lines 25 and 33 to 36) before the server starts. -/
def main : Server :=
  { Data := [],
    mux := StrMap.set (StrMap.set (StrMap.set [] "/" .rootHandler)
      "/favicon.ico" .NotFoundHandler) "/addhandler" .addhandler }

/-- One request served from start to end: the mux selects the handler for the request path
and the handler runs.  A plugin function cannot name `store` or `mux`, which are local
variables of `main`, so its run leaves both tables as they are. -/
def serve (w : World) (s : Server) (r : Request) : Server × Response :=
  match ServeMux.Handler s.mux r with
  | .rootHandler => rootHandler w s
  | .NotFoundHandler => (s, [.NotFound])
  | .addhandler => addhandler w s r
  | .HandlerFunc fn => (s, [.Plugin fn])
  | .RedirectHandler url code => (s, [.Redirect url code])

/-- The state after a sequence of requests served one after the other. -/
def run (s : Server) : List (World × Request) → Server
  | [] => s
  | (w, r) :: rest => run (serve w s r).1 rest

/-- The submissions of a request sequence that were answered with the redirect of line 97,
each as the pair of the redirect target and the submitted program text. -/
def successes (s : Server) : List (World × Request) → List (String × String)
  | [] => []
  | (w, r) :: rest =>
    match (serve w s r).2 with
    | [.Redirect path 302] =>
        (path, r.FormValue "program") :: successes (serve w s r).1 rest
    | _ => successes (serve w s r).1 rest

/-! ## Concurrent requests

Each request runs in its own goroutine.  A task records where a request stands in its
handler; a step of the system is one action of one task.  The mutex of `store` is taken by
the task recorded in `lock`; the mux guards each of its own calls. -/

/-- A reference to a map object.  The program allocates a single map (line 25) and keeps it
in `store.Data`; a Go map value is a reference to the object. -/
inductive MapRef where
  | storeData
  deriving DecidableEq, Repr

/-- The position of a request inside its handler, with the local variables that are live. -/
inductive Task where
  /-- In `addhandler`, before the build (line 68). -/
  | addStart (w : World) (r : Request)
  /-- In `addhandler`, built and loaded, before `mux.HandleFunc` (line 91). -/
  | addHandle (path : String) (h : Nat) (program : String)
  /-- In `addhandler`, before `store.Lock()` (line 93). -/
  | addLock (path program : String)
  /-- In `addhandler`, holding the lock, before the map write (line 94). -/
  | addWrite (path program : String)
  /-- In `addhandler`, holding the lock, before `store.Unlock()` (line 95). -/
  | addUnlock (path : String)
  /-- In `addhandler`, before `http.Redirect` (line 97). -/
  | addRedirect (path : String)
  /-- In `rootHandler`, before `store.Lock()` (line 58). -/
  | rootLock (w : World)
  /-- In `rootHandler`, holding the lock, before `data := store.Data` (line 59). -/
  | rootCopy (w : World)
  /-- In `rootHandler`, holding the lock, before `store.Unlock()` (line 60). -/
  | rootUnlock (w : World) (data : MapRef)
  /-- In `rootHandler`, before `template.ExecuteTemplate` (line 62). -/
  | rootRender (w : World) (data : MapRef)
  /-- The handler has returned, or panicked, with the response. -/
  | done (resp : Response)

/-- The server with its requests in flight. -/
structure System where
  srv : Server
  /-- The task holding the mutex of `store`, if any. -/
  lock : Option Nat
  tasks : List Task

/-- The map object a reference points to, as it is now. -/
def System.deref (σ : System) : MapRef → StrMap String
  | .storeData => σ.srv.Data

/-- Task `i` moves to position `t`. -/
def System.goto (σ : System) (i : Nat) (t : Task) : System :=
  { σ with tasks := σ.tasks.set i t }

/-- One action of task `i`; `none` when there is no such task, it has finished, or it waits
for the mutex. -/
def step (i : Nat) (σ : System) : Option System :=
  match σ.tasks[i]? with
  | none => none
  | some (.addStart w r) =>
    let program := r.FormValue "program"
    match build w program with
    | (_, some err) => some (σ.goto i (.done (handleError ([], some err))))
    | (path, none) =>
      match load w path with
      | .error err => some (σ.goto i (.done (handleError ([], some err))))
      | .ok h => some (σ.goto i (.addHandle path h program))
  | some (.addHandle path h program) =>
    match ServeMux.Handle σ.srv.mux path (.HandlerFunc h) with
    | .error msg => some (σ.goto i (.done (handleError ([.Panic msg], none))))
    | .ok mux =>
      some ({ σ with srv := { σ.srv with mux := mux } }.goto i (.addLock path program))
  | some (.addLock path program) =>
    if σ.lock = none then
      some ({ σ with lock := some i }.goto i (.addWrite path program))
    else none
  | some (.addWrite path program) =>
    some ({ σ with srv := { σ.srv with Data := σ.srv.Data.set path program } }.goto i
      (.addUnlock path))
  | some (.addUnlock path) =>
    some ({ σ with lock := none }.goto i (.addRedirect path))
  | some (.addRedirect path) =>
    some (σ.goto i (.done (handleError ([.Redirect path 302], none))))
  | some (.rootLock w) =>
    if σ.lock = none then some ({ σ with lock := some i }.goto i (.rootCopy w)) else none
  | some (.rootCopy w) => some (σ.goto i (.rootUnlock w .storeData))
  | some (.rootUnlock w data) => some ({ σ with lock := none }.goto i (.rootRender w data))
  | some (.rootRender w data) =>
    let content := σ.deref data
    some (σ.goto i (.done (handleError
      ([.ExecuteTemplate "index.html" content],
        (w.ExecuteTemplate content).map (fun err => .withStack err (w.stack 62))))))
  | some (.done _) => none

/-- A request arrives: the mux selects its handler and a new task starts in it. -/
def arrive (σ : System) (w : World) (r : Request) : System :=
  { σ with tasks := σ.tasks ++
      [match ServeMux.Handler σ.srv.mux r with
       | .rootHandler => .rootLock w
       | .NotFoundHandler => .done [.NotFound]
       | .addhandler => .addStart w r
       | .HandlerFunc fn => .done [.Plugin fn]
       | .RedirectHandler url code => .done [.Redirect url code]] }

/-- The system when `main` starts serving: no request in flight, the mutex free. -/
def boot : System :=
  { srv := main, lock := none, tasks := [] }

/-- The actions of a schedule, a list of task numbers, taken in order. -/
def exec : List Nat → System → Option System
  | [], σ => some σ
  | i :: rest, σ =>
    match step i σ with
    | none => none
    | some σ' => exec rest σ'

/-- The states the running server can be in. -/
inductive Reachable : System → Prop where
  | boot : Reachable boot
  | arrive {σ : System} (w : World) (r : Request) : Reachable σ → Reachable (arrive σ w r)
  | step {σ σ' : System} (i : Nat) : Reachable σ → step i σ = some σ' → Reachable σ'

/-- The response of a task that has finished. -/
def Task.response : Task → Option Response
  | .done resp => some resp
  | _ => none

/-- The path a task has registered in the mux and not yet written to `store.Data`. -/
def Task.registered : Task → Option String
  | .addLock path _ => some path
  | .addWrite path _ => some path
  | _ => none

/-! ## Invariants -/

/-- What holds of the two tables between requests: every key of `store.Data` is a pattern
of the mux, the pattern `/` keeps its handler and is the only pattern that ends in a slash,
no key occurs twice, and no redirect handler is registered. -/
structure Inv (s : Server) : Prop where
  covered : ∀ p, s.Data.get p ≠ none → s.mux.get p ≠ none
  root : s.mux.get "/" = some .rootHandler
  muxNodup : (StrMap.keys s.mux).Nodup
  dataNodup : (StrMap.keys s.Data).Nodup
  subtree : ∀ pat, pat ∈ StrMap.keys s.mux → isSubtree pat = true → pat = "/"
  registered : ∀ (pat : String) (url : String) (code : Nat),
    s.mux.get pat ≠ some (.RedirectHandler url code)

/-- What holds of the running system: every key of `store.Data` is a pattern of the mux,
and so is the path of every task between its `mux.HandleFunc` and its map write. -/
structure SysInv (σ : System) : Prop where
  covered : ∀ p, σ.srv.Data.get p ≠ none → σ.srv.mux.get p ≠ none
  pending : ∀ t, t ∈ σ.tasks → ∀ p, t.registered = some p → σ.srv.mux.get p ≠ none

/-- What holds of the submissions that are between their Router insert and their Registry
insert: the path of such a task is not yet a key of `store.Data`, and no two such tasks
have the same path. -/
structure PendingInv (σ : System) : Prop where
  fresh : ∀ (i : Nat) (t : Task) (p : String), σ.tasks[i]? = some t →
    t.registered = some p → σ.srv.Data.get p = none
  distinct : ∀ (i j : Nat) (t t' : Task) (p : String), σ.tasks[i]? = some t →
    σ.tasks[j]? = some t' → t.registered = some p → t'.registered = some p → i = j

/-- The system gets from the first state to the second by arrivals of requests and actions
of tasks. -/
inductive Steps : System → System → Prop where
  | refl (σ : System) : Steps σ σ
  | arrive {σ σ' : System} (w : World) (r : Request) : Steps σ σ' → Steps σ (arrive σ' w r)
  | step {σ σ' σ'' : System} (i : Nat) : Steps σ σ' → step i σ' = some σ'' → Steps σ σ''

/-! ## Sample inputs -/

/-- A world in which the build and the load succeed, with a handler function `H`. -/
def World.good (dir : String) (fn : Nat) : World :=
  { TempDir := .ok dir
    WriteFile := fun _ _ => none
    CombinedOutput := fun _ => ("", none)
    Open := fun _ => .ok { Lookup := fun _ => .ok { typ := handlerType, fn := fn } }
    stack := fun _ => ""
    ExecuteTemplate := fun _ => none }

/-- A world in which the compiler exits with a diagnostic. -/
def World.compileError : World :=
  { World.good "/tmp/addhandler2" 0 with
    CombinedOutput := fun _ => ("./main.go:1:1: syntax error", some (.exit "exit status 2")) }

/-- A world in which `H` is exported as an integer variable. -/
def World.wrongType : World :=
  { World.good "/tmp/addhandler3" 0 with
    Open := fun _ => .ok { Lookup := fun _ => .ok { typ := .pointer (.basic "int"), fn := 0 } } }

/-- The type `func(http.ResponseWriter, *http.Request) error`, the handler type with an
error result added. -/
def errorHandlerType : GoType :=
  .func [.named "net/http" "http" "ResponseWriter",
         .pointer (.named "net/http" "http" "Request")] [.basic "error"]

/-- A world in which `H` is exported as a function that also returns an error. -/
def World.wrongFunc : World :=
  { World.good "/tmp/addhandler5" 0 with
    Open := fun _ => .ok { Lookup := fun _ => .ok { typ := errorHandlerType, fn := 0 } } }

/-- The path of the artifact built in the directory `/tmp/addhandler1`. -/
def samplePath : String := "/tmp/addhandler1/plugin.so"

/-- A submission of the given program text. -/
def Request.submit (program : String) : Request :=
  { Method := "POST", Path := "/addhandler", Host := "localhost:8080",
    HostName := "localhost", URLHost := "", Form := [("program", program)] }

/-- A request for the given path without form data. -/
def Request.fetch (method path : String) : Request :=
  { Method := method, Path := path, Host := "localhost:8080", HostName := "localhost",
    URLHost := "", Form := [] }

/-- One submission in flight, nothing else. -/
def System.submitting : System :=
  arrive boot (World.good "/tmp/addhandler1" 7) (Request.submit "package main")

/-- The submission after its build and load, before `mux.HandleFunc`. -/
def System.loaded : System :=
  (exec [0] System.submitting).getD boot

/-- The submission after its map write, still holding the lock. -/
def System.written : System :=
  (exec [0, 0, 0, 0] System.submitting).getD boot

/-- The submission after it has run to its end. -/
def System.registered : System :=
  (exec [0, 0, 0, 0, 0, 0] System.submitting).getD boot

/-- A second submission, whose build returns the path of the first again, arrives after the
first and runs to its end. -/
def System.resubmitted : System :=
  (exec [1, 1] (arrive System.registered (World.good "/tmp/addhandler1" 8)
    (Request.submit "package other"))).getD boot

/-- A listing request (task 0) and a submission (task 1) in flight together. -/
def System.racing : System :=
  arrive (arrive boot (World.good "/tmp/addhandler1" 7) (Request.fetch "GET" "/"))
    (World.good "/tmp/addhandler1" 7) (Request.submit "package main")

/-! ## Facts about paths -/

theorem splitSlash_ne_nil (l : List Char) : splitSlash l ≠ [] := by
  cases l with
  | nil => simp [splitSlash]
  | cons c cs =>
    simp only [splitSlash]
    split
    · simp
    · split <;> simp

theorem splitSlash_noslash (l : List Char) : ∀ seg ∈ splitSlash l, '/' ∉ seg := by
  induction l with
  | nil => simp [splitSlash]
  | cons c cs ih =>
    intro seg hseg
    simp only [splitSlash] at hseg
    by_cases hc : c = '/'
    · simp only [hc, if_true, List.mem_cons] at hseg
      rcases hseg with h | h
      · simp [h]
      · exact ih seg h
    · simp only [hc, if_false] at hseg
      cases hs : splitSlash cs with
      | nil =>
        simp only [hs, List.mem_singleton] at hseg
        rw [hseg]
        simp only [List.mem_singleton]
        exact fun h => hc h.symm
      | cons seg0 rest =>
        simp only [hs, List.mem_cons] at hseg
        rcases hseg with h | h
        · rw [h]
          have h0 := ih seg0 (by rw [hs]; exact List.mem_cons_self _ _)
          simp only [List.mem_cons, not_or]
          exact ⟨fun h => hc h.symm, h0⟩
        · exact ih seg (by rw [hs]; exact List.mem_cons_of_mem _ h)

theorem cleanStep_good (rooted : Bool) (kept : List (List Char)) (seg : List Char)
    (hk : ∀ e ∈ kept, e ≠ [] ∧ '/' ∉ e) (hs : '/' ∉ seg) :
    ∀ e ∈ cleanStep rooted kept seg, e ≠ [] ∧ '/' ∉ e := by
  unfold cleanStep
  by_cases h1 : seg = [] ∨ seg = ['.']
  · simp only [h1, if_true]
    exact hk
  · simp only [h1, if_false]
    have hne : seg ≠ [] := fun h => h1 (Or.inl h)
    have hall : ∀ e ∈ seg :: kept, e ≠ [] ∧ '/' ∉ e := by
      intro e he
      rcases List.mem_cons.mp he with h | h
      · rw [h]
        exact ⟨hne, hs⟩
      · exact hk e h
    by_cases h2 : seg = ['.', '.']
    · simp only [h2, if_true]
      cases kept with
      | nil =>
        cases rooted
        · intro e he
          simp only [Bool.false_eq_true, if_false, List.mem_singleton] at he
          rw [he]
          decide
        · simp
      | cons top below =>
        by_cases h3 : top = ['.', '.']
        · simp only [h3, if_true]
          rw [h2, h3] at hall
          exact hall
        · simp only [h3, if_false]
          exact fun e he => hk e (List.mem_cons_of_mem _ he)
    · simp only [h2, if_false]
      exact hall

theorem foldl_cleanStep_good (rooted : Bool) (segs kept : List (List Char))
    (hk : ∀ e ∈ kept, e ≠ [] ∧ '/' ∉ e) (hs : ∀ seg ∈ segs, '/' ∉ seg) :
    ∀ e ∈ segs.foldl (cleanStep rooted) kept, e ≠ [] ∧ '/' ∉ e := by
  induction segs generalizing kept with
  | nil => exact hk
  | cons seg rest ih =>
    simp only [List.foldl_cons]
    apply ih
    · exact cleanStep_good rooted kept seg hk (hs seg (List.mem_cons_self _ _))
    · exact fun s hs' => hs s (List.mem_cons_of_mem _ hs')

theorem cleanElems_good (rooted : Bool) (path : List Char) :
    ∀ e ∈ cleanElems rooted path, e ≠ [] ∧ '/' ∉ e := by
  intro e he
  simp only [cleanElems, List.mem_reverse] at he
  exact foldl_cleanStep_good rooted _ [] (by simp) (splitSlash_noslash path) e he

theorem joinSlash_getLast (segs : List (List Char)) (hne : segs ≠ [])
    (hg : ∀ e ∈ segs, e ≠ [] ∧ '/' ∉ e) :
    ∃ c, (joinSlash segs).getLast? = some c ∧ c ≠ '/' := by
  induction segs with
  | nil => exact absurd rfl hne
  | cons seg rest ih =>
    cases rest with
    | nil =>
      obtain ⟨hs1, hs2⟩ := hg seg (List.mem_cons_self _ _)
      refine ⟨seg.getLast hs1, ?_, ?_⟩
      · simp [joinSlash, List.getLast?_eq_getLast _ hs1]
      · intro h
        exact hs2 (h ▸ List.getLast_mem hs1)
    | cons s2 rest2 =>
      obtain ⟨c, hc, hc'⟩ := ih (by simp) (fun e he => hg e (List.mem_cons_of_mem _ he))
      refine ⟨c, ?_, hc'⟩
      have hne2 : joinSlash (s2 :: rest2) ≠ [] := by
        intro h
        rw [h] at hc
        simp at hc
      simp only [joinSlash]
      rw [List.getLast?_append_of_ne_nil _ (by simp)]
      cases hj : joinSlash (s2 :: rest2) with
      | nil => exact absurd hj hne2
      | cons a l =>
        rw [hj] at hc
        rw [List.getLast?_cons_cons]
        exact hc

theorem Clean_ne_empty (path : String) : Clean path ≠ "" := by
  unfold Clean
  split
  · decide
  · split
    · intro h
      have := congrArg String.data h
      simp at this
    · split
      · decide
      · next hne =>
        intro h
        have hd := congrArg String.data h
        simp only at hd
        have hnil : cleanElems false path.data ≠ [] := by
          intro hn
          rw [hn] at hne
          exact hne rfl
        obtain ⟨c, hc, -⟩ := joinSlash_getLast _ hnil (cleanElems_good false path.data)
        rw [show joinSlash (cleanElems false path.data) = [] from hd] at hc
        simp at hc

theorem Clean_subtree (path : String) (h : isSubtree (Clean path) = true) :
    Clean path = "/" := by
  unfold Clean at h ⊢
  split
  · next hp =>
    simp only [hp, if_true] at h
    exact absurd h (by decide)
  · next hp =>
    simp only [hp, if_false] at h
    split
    · next hr =>
      simp only [hr, if_true] at h
      by_cases hnil : cleanElems true path.data = []
      · rw [hnil]
        rfl
      · obtain ⟨c, hc, hc'⟩ := joinSlash_getLast _ hnil (cleanElems_good true path.data)
        exfalso
        simp only [isSubtree, beq_iff_eq] at h
        cases hj : joinSlash (cleanElems true path.data) with
        | nil => rw [hj] at hc; simp at hc
        | cons a l =>
          rw [hj] at hc h
          rw [List.getLast?_cons_cons, hc] at h
          exact hc' (Option.some.inj h)
    · next hr =>
      simp only [hr, if_false] at h
      split
      · next he =>
        simp only [he, if_true] at h
        exact absurd h (by decide)
      · next he =>
        simp only [he, Bool.false_eq_true, if_false] at h
        have hnil : cleanElems false path.data ≠ [] := by
          intro hn
          rw [hn] at he
          exact he rfl
        obtain ⟨c, hc, hc'⟩ := joinSlash_getLast _ hnil (cleanElems_good false path.data)
        exfalso
        simp only [isSubtree, beq_iff_eq] at h
        rw [hc] at h
        exact hc' (Option.some.inj h)

theorem Join_plugin_ne_empty (dir : String) : Join dir "plugin.so" ≠ "" := by
  by_cases hd : dir = ""
  · subst hd
    decide
  · simp only [Join, ne_eq, hd, not_false_eq_true, if_true]
    exact Clean_ne_empty _

theorem Join_plugin_subtree (dir : String) (h : isSubtree (Join dir "plugin.so") = true) :
    Join dir "plugin.so" = "/" := by
  by_cases hd : dir = ""
  · subst hd
    exact absurd h (by decide)
  · simp only [Join, ne_eq, hd, not_false_eq_true, if_true] at h ⊢
    exact Clean_subtree _ h

/-! ## Cleaned paths are canonical -/

theorem splitSlash_single (seg : List Char) (h : '/' ∉ seg) : splitSlash seg = [seg] := by
  induction seg with
  | nil => rfl
  | cons c cs ih =>
    simp only [List.mem_cons, not_or] at h
    have hc : ¬ c = '/' := fun hc => h.1 hc.symm
    simp [splitSlash, hc, ih h.2]

theorem splitSlash_append (seg t : List Char) (h : '/' ∉ seg) :
    splitSlash (seg ++ '/' :: t) = seg :: splitSlash t := by
  induction seg with
  | nil => simp [splitSlash]
  | cons c cs ih =>
    simp only [List.mem_cons, not_or] at h
    have hc : ¬ c = '/' := fun hc => h.1 hc.symm
    simp [splitSlash, hc, ih h.2]

theorem splitSlash_joinSlash (segs : List (List Char)) (hne : segs ≠ [])
    (h : ∀ e ∈ segs, '/' ∉ e) : splitSlash (joinSlash segs) = segs := by
  induction segs with
  | nil => exact absurd rfl hne
  | cons seg rest ih =>
    cases rest with
    | nil => exact splitSlash_single seg (h seg (List.mem_cons_self _ _))
    | cons s2 rest2 =>
      simp only [joinSlash]
      rw [splitSlash_append seg _ (h seg (List.mem_cons_self _ _)),
        ih (by simp) (fun e he => h e (List.mem_cons_of_mem _ he))]

theorem cleanStep_rooted_normal (kept : List (List Char)) (seg : List Char)
    (hk : ∀ e ∈ kept, e ≠ [] ∧ e ≠ ['.'] ∧ e ≠ ['.', '.'])  :
    ∀ e ∈ cleanStep true kept seg, e ≠ [] ∧ e ≠ ['.'] ∧ e ≠ ['.', '.'] := by
  unfold cleanStep
  by_cases h1 : seg = [] ∨ seg = ['.']
  · simp only [h1, if_true]
    exact hk
  · simp only [h1, if_false]
    by_cases h2 : seg = ['.', '.']
    · simp only [h2, if_true]
      cases kept with
      | nil => simp
      | cons top below =>
        have h3 : top ≠ ['.', '.'] := (hk top (List.mem_cons_self _ _)).2.2
        simp only [h3, if_false]
        exact fun e he => hk e (List.mem_cons_of_mem _ he)
    · simp only [h2, if_false]
      intro e he
      rcases List.mem_cons.mp he with h | h
      · rw [h]
        exact ⟨fun h' => h1 (Or.inl h'), fun h' => h1 (Or.inr h'), h2⟩
      · exact hk e h

theorem foldl_cleanStep_rooted_normal (segs kept : List (List Char))
    (hk : ∀ e ∈ kept, e ≠ [] ∧ e ≠ ['.'] ∧ e ≠ ['.', '.']) :
    ∀ e ∈ segs.foldl (cleanStep true) kept, e ≠ [] ∧ e ≠ ['.'] ∧ e ≠ ['.', '.'] := by
  induction segs generalizing kept with
  | nil => exact hk
  | cons seg rest ih =>
    simp only [List.foldl_cons]
    exact ih _ (cleanStep_rooted_normal kept seg hk)

theorem foldl_cleanStep_of_normal (rooted : Bool) (segs kept : List (List Char))
    (h : ∀ e ∈ segs, e ≠ [] ∧ e ≠ ['.'] ∧ e ≠ ['.', '.']) :
    segs.foldl (cleanStep rooted) kept = segs.reverse ++ kept := by
  induction segs generalizing kept with
  | nil => rfl
  | cons seg rest ih =>
    obtain ⟨h1, h2, h3⟩ := h seg (List.mem_cons_self _ _)
    have hstep : cleanStep rooted kept seg = seg :: kept := by
      simp [cleanStep, h1, h2, h3]
    simp only [List.foldl_cons, hstep]
    rw [ih _ (fun e he => h e (List.mem_cons_of_mem _ he))]
    simp

theorem cleanElems_rooted_fixed (path : List Char) :
    cleanElems true ('/' :: joinSlash (cleanElems true path)) = cleanElems true path := by
  have hgood := cleanElems_good true path
  have hnormal : ∀ e ∈ cleanElems true path, e ≠ [] ∧ e ≠ ['.'] ∧ e ≠ ['.', '.'] := by
    intro e he
    simp only [cleanElems, List.mem_reverse] at he
    exact foldl_cleanStep_rooted_normal _ [] (by simp) e he
  by_cases hnil : cleanElems true path = []
  · rw [hnil]
    rfl
  · have hsplit : splitSlash ('/' :: joinSlash (cleanElems true path)) =
        [] :: cleanElems true path := by
      simp only [splitSlash, if_true]
      rw [splitSlash_joinSlash _ hnil (fun e he => (hgood e he).2)]
    have hstep : cleanStep true [] [] = [] := by simp [cleanStep]
    show ((splitSlash ('/' :: joinSlash (cleanElems true path))).foldl (cleanStep true)
      []).reverse = cleanElems true path
    rw [hsplit, List.foldl_cons, hstep, foldl_cleanStep_of_normal true _ [] hnormal]
    simp

theorem Clean_rooted_form (path : String) (h : (Clean path).data.head? = some '/') :
    path ≠ "" ∧ path.data.head? = some '/' ∧
      Clean path = ⟨'/' :: joinSlash (cleanElems true path.data)⟩ := by
  unfold Clean at h ⊢
  by_cases hp : path = ""
  · simp only [hp, if_true] at h
    exact absurd h (by decide)
  · simp only [hp, if_false] at h ⊢
    by_cases hr : path.data.head? = some '/'
    · exact ⟨hp, hr, by simp [hr]⟩
    · exfalso
      simp only [hr, if_false] at h
      by_cases he : (cleanElems false path.data).isEmpty = true
      · simp only [he, if_true] at h
        exact absurd h (by decide)
      · simp only [he, Bool.false_eq_true, if_false] at h
        have hgood := cleanElems_good false path.data
        cases hc : cleanElems false path.data with
        | nil =>
          rw [hc] at he
          exact he rfl
        | cons seg rest =>
          rw [hc] at h hgood
          obtain ⟨hne, hns⟩ := hgood seg (List.mem_cons_self _ _)
          cases seg with
          | nil => exact hne rfl
          | cons c cs =>
            have hhead : (joinSlash ((c :: cs) :: rest)).head? = some c := by
              cases rest <;> simp [joinSlash]
            rw [hhead] at h
            simp only [List.mem_cons, not_or] at hns
            exact hns.1 (Option.some.inj h).symm

theorem Clean_of_rooted (y : String) (hne : y ≠ "") (hr : y.data.head? = some '/') :
    Clean y = ⟨'/' :: joinSlash (cleanElems true y.data)⟩ := by
  simp [Clean, hne, hr]

theorem cleanPath_of_rooted (y : String) (hne : y ≠ "") (hr : y.data.head? = some '/') :
    cleanPath y =
      if y.data.getLast? = some '/' ∧ Clean y ≠ "/" then Clean y ++ "/" else Clean y := by
  simp [cleanPath, hne, hr]

theorem cleanPath_Clean (path : String) (h : (Clean path).data.head? = some '/') :
    cleanPath (Clean path) = Clean path := by
  obtain ⟨-, -, hform⟩ := Clean_rooted_form path h
  have hne : Clean path ≠ "" := Clean_ne_empty path
  have hfix : Clean (Clean path) = Clean path := by
    rw [Clean_of_rooted (Clean path) hne h]
    have hd : (Clean path).data = '/' :: joinSlash (cleanElems true path.data) := by
      rw [hform]
    rw [hd, cleanElems_rooted_fixed]
    exact hform.symm
  rw [cleanPath_of_rooted (Clean path) hne h, hfix]
  by_cases hl : (Clean path).data.getLast? = some '/'
  · have hroot : Clean path = "/" := Clean_subtree path (by simp [isSubtree, hl])
    simp [hroot]
  · simp [hl]

/-! ## Facts about maps -/

theorem StrMap.get_set_self {V : Type} (m : StrMap V) (k : String) (v : V) :
    StrMap.get (StrMap.set m k v) k = some v := by
  simp [StrMap.set, StrMap.get]

theorem StrMap.get_erase_ne {V : Type} (m : StrMap V) (k q : String) (h : q ≠ k) :
    StrMap.get (StrMap.erase m k) q = StrMap.get m q := by
  induction m with
  | nil => rfl
  | cons e rest ih =>
    obtain ⟨k', v⟩ := e
    by_cases hk : k' = k
    · subst hk
      have hq : ¬ k' = q := fun h' => h h'.symm
      simp [StrMap.erase, StrMap.get, hq, ih]
    · by_cases hq : k' = q
      · subst hq
        simp [StrMap.erase, StrMap.get, hk]
      · simp [StrMap.erase, StrMap.get, hk, hq, ih]

theorem StrMap.get_set_ne {V : Type} (m : StrMap V) (k q : String) (v : V) (h : q ≠ k) :
    StrMap.get (StrMap.set m k v) q = StrMap.get m q := by
  have hk : ¬ k = q := fun h' => h h'.symm
  simp only [StrMap.set, StrMap.get, hk, if_false]
  exact StrMap.get_erase_ne m k q h

theorem StrMap.get_isSome_iff {V : Type} (m : StrMap V) (k : String) :
    (StrMap.get m k).isSome = true ↔ k ∈ StrMap.keys m := by
  induction m with
  | nil => simp [StrMap.get, StrMap.keys]
  | cons e rest ih =>
    obtain ⟨k', v⟩ := e
    by_cases hk : k' = k
    · simp [StrMap.get, StrMap.keys, hk]
    · have hk' : ¬ k = k' := fun h => hk h.symm
      simp only [StrMap.get, hk, if_false, ih]
      simp [StrMap.keys, hk']

theorem StrMap.get_eq_none_iff {V : Type} (m : StrMap V) (k : String) :
    StrMap.get m k = none ↔ k ∉ StrMap.keys m := by
  rw [← StrMap.get_isSome_iff]
  cases StrMap.get m k <;> simp

theorem StrMap.erase_of_fresh {V : Type} (m : StrMap V) (k : String)
    (h : StrMap.get m k = none) : StrMap.erase m k = m := by
  induction m with
  | nil => rfl
  | cons e rest ih =>
    obtain ⟨k', v⟩ := e
    by_cases hk : k' = k
    · simp [StrMap.get, hk] at h
    · simp only [StrMap.get, hk, if_false] at h
      simp [StrMap.erase, hk, ih h]

theorem StrMap.set_of_fresh {V : Type} (m : StrMap V) (k : String) (v : V)
    (h : StrMap.get m k = none) : StrMap.set m k v = (k, v) :: m := by
  simp [StrMap.set, StrMap.erase_of_fresh m k h]

theorem StrMap.mem_of_get {V : Type} (m : StrMap V) (k : String) (v : V)
    (h : StrMap.get m k = some v) : (k, v) ∈ m := by
  induction m with
  | nil => simp [StrMap.get] at h
  | cons e rest ih =>
    obtain ⟨k', v'⟩ := e
    by_cases hk : k' = k
    · simp only [StrMap.get, hk, if_true, Option.some.injEq] at h
      simp [hk, h]
    · simp only [StrMap.get, hk, if_false] at h
      exact List.mem_cons_of_mem _ (ih h)

theorem StrMap.get_of_mem {V : Type} (m : StrMap V) (hn : (StrMap.keys m).Nodup)
    (k : String) (v : V) (h : (k, v) ∈ m) : StrMap.get m k = some v := by
  induction m with
  | nil => simp at h
  | cons e rest ih =>
    obtain ⟨k', v'⟩ := e
    simp only [StrMap.keys, List.map_cons, List.nodup_cons] at hn
    rcases List.mem_cons.mp h with heq | hmem
    · simp only [Prod.mk.injEq] at heq
      simp [StrMap.get, heq.1, heq.2]
    · have hk : ¬ k' = k := by
        intro hk
        apply hn.1
        rw [hk]
        exact List.mem_map_of_mem Prod.fst hmem
      simp only [StrMap.get, hk, if_false]
      exact ih hn.2 hmem

theorem StrMap.get_eq_some_iff {V : Type} (m : StrMap V) (hn : (StrMap.keys m).Nodup)
    (k : String) (v : V) : StrMap.get m k = some v ↔ (k, v) ∈ m :=
  ⟨StrMap.mem_of_get m k v, StrMap.get_of_mem m hn k v⟩

/-! ## Facts about the build and the load -/

theorem isHandlerType_iff (t : GoType) : isHandlerType t = true ↔ t = handlerType := by
  constructor
  · intro h
    unfold isHandlerType at h
    split at h
    · simp only [Bool.and_eq_true, beq_iff_eq] at h
      obtain ⟨⟨⟨⟨⟨h1, h2⟩, h3⟩, h4⟩, h5⟩, h6⟩ := h
      subst h1 h2 h3 h4 h5 h6
      rfl
    · exact absurd h (by simp)
  · intro h
    subst h
    rfl

theorem build_ok_iff (w : World) (program path : String) :
    build w program = (path, none) ↔
      ∃ dir, w.TempDir = .ok dir ∧ w.WriteFile (Join dir "main.go") program = none ∧
        (w.CombinedOutput dir).2 = none ∧ path = Join dir "plugin.so" := by
  cases hT : w.TempDir with
  | error e => simp [build, hT]
  | ok dir =>
    cases hW : w.WriteFile (Join dir "main.go") program with
    | some e => simp [build, hT, hW]
    | none =>
      rcases hC : w.CombinedOutput dir with ⟨o, _ | _ | _⟩
      · simp [build, hT, hW, hC, eq_comm]
      · simp [build, hT, hW, hC]
      · simp [build, hT, hW, hC]

theorem build_ok_ne_empty (w : World) (program path : String)
    (h : build w program = (path, none)) : path ≠ "" := by
  obtain ⟨dir, -, -, -, hp⟩ := (build_ok_iff w program path).mp h
  rw [hp]
  exact Join_plugin_ne_empty dir

theorem build_ok_subtree (w : World) (program path : String)
    (h : build w program = (path, none)) (hs : isSubtree path = true) : path = "/" := by
  obtain ⟨dir, -, -, -, hp⟩ := (build_ok_iff w program path).mp h
  rw [hp] at hs ⊢
  exact Join_plugin_subtree dir hs

theorem cleanPath_build (w : World) (program path : String)
    (hb : build w program = (path, none)) (hr : path.data.head? = some '/') :
    cleanPath path = path := by
  obtain ⟨dir, -, -, -, hp⟩ := (build_ok_iff w program path).mp hb
  by_cases hd : dir = ""
  · subst hd
    rw [hp] at hr
    exact absurd hr (by decide)
  · have hj : Join dir "plugin.so" = Clean (dir ++ "/" ++ "plugin.so") := by
      simp [Join, hd]
    rw [hp, hj] at hr ⊢
    exact cleanPath_Clean _ hr

theorem build_cases (w : World) (program : String) :
    (∃ e, build w program = ("", some e)) ∨ (∃ path, build w program = (path, none)) := by
  cases hT : w.TempDir with
  | error e => simp [build, hT]
  | ok dir =>
    cases hW : w.WriteFile (Join dir "main.go") program with
    | some e => simp [build, hT, hW]
    | none =>
      rcases hC : w.CombinedOutput dir with ⟨o, _ | _ | _⟩ <;> simp [build, hT, hW, hC]

theorem addhandler_of_build_error (w : World) (s : Server) (r : Request) (path : String)
    (e : GoError) (h : build w (r.FormValue "program") = (path, some e)) :
    addhandler w s r = (s, [.Error e.formatPlusV 500]) := by
  simp [addhandler, h, handleError]

theorem addhandler_of_load_error (w : World) (s : Server) (r : Request) (path : String)
    (e : GoError) (hb : build w (r.FormValue "program") = (path, none))
    (h : load w path = .error e) :
    addhandler w s r = (s, [.Error e.formatPlusV 500]) := by
  simp [addhandler, hb, h, handleError]

theorem addhandler_of_loaded (w : World) (s : Server) (r : Request) (path : String) (fn : Nat)
    (hb : build w (r.FormValue "program") = (path, none))
    (h : load w path = .ok fn) :
    addhandler w s r =
      if (s.mux.get path).isSome then
        (s, [.Panic ("http: multiple registrations for " ++ path)])
      else ({ Data := s.Data.set path (r.FormValue "program"),
              mux := s.mux.set path (.HandlerFunc fn) }, [.Redirect path 302]) := by
  have hne := build_ok_ne_empty w _ path hb
  by_cases hp : (s.mux.get path).isSome = true
  · simp [addhandler, hb, h, handleError, ServeMux.Handle, hne, hp]
  · simp [addhandler, hb, h, handleError, ServeMux.Handle, hne, hp]

/-! ## The pipeline of one submission -/

/-- C1: when the pipeline of `addhandler` fails at any stage (the build returns an error,
`plugin.Open` fails, the lookup of `H` fails, or the type assertion on the symbol fails),
the Registry and the Router after the request equal those before it, and the response has
status 500. -/
theorem addhandler_failure_no_trace (w : World) (s : Server) (r : Request)
    (hfail :
      (∃ path e, build w (r.FormValue "program") = (path, some e)) ∨
      (∃ path, build w (r.FormValue "program") = (path, none) ∧
        ((∃ e, w.Open path = .error e) ∨
         (∃ pl, w.Open path = .ok pl ∧
           ((∃ e, pl.Lookup "H" = .error e) ∨
            (∃ sym, pl.Lookup "H" = .ok sym ∧ sym.typ ≠ handlerType)))))) :
    (addhandler w s r).1 = s ∧ (addhandler w s r).2.status = some 500 := by
  rcases hfail with ⟨path, e, hb⟩ | ⟨path, hb, hl⟩
  · rw [addhandler_of_build_error w s r path e hb]
    exact ⟨rfl, rfl⟩
  · have hload : ∃ e, load w path = .error e := by
      rcases hl with ⟨e, hO⟩ | ⟨pl, hO, ⟨e, hL⟩ | ⟨sym, hL, ht⟩⟩
      · simp [load, hO]
      · simp [load, hO, hL]
      · have hf : ¬ isHandlerType sym.typ = true := fun h => ht ((isHandlerType_iff _).mp h)
        simp [load, hO, hL, hf]
    obtain ⟨e, he⟩ := hload
    rw [addhandler_of_load_error w s r path e hb he]
    exact ⟨rfl, rfl⟩

theorem addhandler_failure_no_trace_witness :
    (addhandler World.wrongType main (Request.submit "package main")).1 = main ∧
    (addhandler World.wrongType main (Request.submit "package main")).2.status = some 500 :=
  addhandler_failure_no_trace World.wrongType main (Request.submit "package main")
    (Or.inr ⟨"/tmp/addhandler3/plugin.so", rfl,
      Or.inr ⟨_, rfl, Or.inr ⟨_, rfl, by simp [handlerType]⟩⟩⟩)

/-- C2: when the build succeeds with artifact path `p` that is not yet a pattern of the
Router, and loading `p` yields a symbol `H` of the handler type, then after the request the
Registry maps `p` to the submitted text, the Router maps `p` to the loaded function, every
other entry of both is unchanged, and the response is the redirect with code 302 to `p`. -/
theorem addhandler_success (w : World) (s : Server) (r : Request) (p : String)
    (pl : Plugin) (sym : Symbol)
    (hb : build w (r.FormValue "program") = (p, none))
    (hfresh : s.mux.get p = none)
    (hO : w.Open p = .ok pl) (hL : pl.Lookup "H" = .ok sym) (ht : sym.typ = handlerType) :
    (addhandler w s r).1.Data.get p = some (r.FormValue "program") ∧
    (addhandler w s r).1.mux.get p = some (.HandlerFunc sym.fn) ∧
    (∀ q, q ≠ p → (addhandler w s r).1.Data.get q = s.Data.get q ∧
      (addhandler w s r).1.mux.get q = s.mux.get q) ∧
    (addhandler w s r).2 = [.Redirect p 302] ∧
    (addhandler w s r).2.status = some 302 ∧ (addhandler w s r).2.target = some p := by
  have hload : load w p = .ok sym.fn := by
    simp [load, hO, hL, (isHandlerType_iff _).mpr ht]
  rw [addhandler_of_loaded w s r p sym.fn hb hload, if_neg (by simp [hfresh])]
  refine ⟨StrMap.get_set_self _ _ _, StrMap.get_set_self _ _ _, ?_, rfl, rfl, rfl⟩
  intro q hq
  exact ⟨StrMap.get_set_ne _ _ _ _ hq, StrMap.get_set_ne _ _ _ _ hq⟩

theorem addhandler_success_witness :
    (addhandler (World.good "/tmp/addhandler1" 7) main (Request.submit "package main")).2 =
      [.Redirect "/tmp/addhandler1/plugin.so" 302] :=
  (addhandler_success (World.good "/tmp/addhandler1" 7) main (Request.submit "package main")
    "/tmp/addhandler1/plugin.so" { Lookup := fun _ => .ok { typ := handlerType, fn := 7 } }
    { typ := handlerType, fn := 7 } rfl rfl rfl rfl rfl).2.2.2.1

/-- C6: when the compiler exits unsuccessfully with combined output `o`, `build` returns an
error whose message is exactly `o` together with the empty path, and the response of
`addhandler` has status 500 and a body in which `o` occurs verbatim. -/
theorem build_compile_error (w : World) (s : Server) (r : Request) (dir o msg : String)
    (hT : w.TempDir = .ok dir)
    (hW : w.WriteFile (Join dir "main.go") (r.FormValue "program") = none)
    (hC : w.CombinedOutput dir = (o, some (.exit msg))) :
    (∃ e, build w (r.FormValue "program") = ("", some e) ∧ e.Error = o) ∧
    (addhandler w s r).2.status = some 500 ∧
    ∃ pre post, (addhandler w s r).2.body = some (pre ++ o ++ post) := by
  have hb : build w (r.FormValue "program") =
      ("", some (.fundamental o (w.stack 118))) := by
    simp [build, hT, hW, hC]
  refine ⟨⟨_, hb, rfl⟩, ?_⟩
  rw [addhandler_of_build_error w s r "" _ hb]
  refine ⟨rfl, "", w.stack 118 ++ "\n", ?_⟩
  simp [Response.body, GoError.formatPlusV, String.append_assoc]

theorem build_compile_error_witness :
    (addhandler World.compileError main (Request.submit "package main")).2.status = some 500 :=
  (build_compile_error World.compileError main (Request.submit "package main")
    "/tmp/addhandler2" "./main.go:1:1: syntax error" "exit status 2" rfl rfl rfl).2.1

/-- C7: for an artifact that opens and exports a symbol `H`, the load succeeds exactly when
the dynamic type of the symbol is `func(http.ResponseWriter, *http.Request)`.  In that case
the loaded handler is the symbol itself, it is what a fresh path gets registered with, and
no other handler is ever registered by the request.  Otherwise the error text contains the
description of the observed type, the response has status 500 and nothing is registered. -/
theorem load_type_assertion (w : World) (s : Server) (r : Request) (path : String)
    (pl : Plugin) (sym : Symbol)
    (hb : build w (r.FormValue "program") = (path, none))
    (hO : w.Open path = .ok pl) (hL : pl.Lookup "H" = .ok sym) :
    ((∃ h, load w path = .ok h) ↔ sym.typ = handlerType) ∧
    (sym.typ = handlerType →
      load w path = .ok sym.fn ∧
      (s.mux.get path = none →
        (addhandler w s r).1.mux.get path = some (.HandlerFunc sym.fn)) ∧
      (∀ q h, (addhandler w s r).1.mux.get q = some h →
        s.mux.get q = some h ∨ (q = path ∧ h = .HandlerFunc sym.fn))) ∧
    (sym.typ ≠ handlerType →
      (∃ e pre post, load w path = .error e ∧
        e.Error = pre ++ sym.typ.describe ++ post) ∧
      (∃ pre post, (addhandler w s r).2.body = some (pre ++ sym.typ.describe ++ post)) ∧
      (addhandler w s r).2.status = some 500 ∧
      (addhandler w s r).1 = s) := by
  refine ⟨?_, ?_, ?_⟩
  · by_cases ht : isHandlerType sym.typ = true
    · have hty := (isHandlerType_iff _).mp ht
      simp only [load, hO, hL, ht, if_true]
      exact ⟨fun _ => hty, fun _ => ⟨_, rfl⟩⟩
    · have hne : sym.typ ≠ handlerType := fun h => ht ((isHandlerType_iff _).mpr h)
      simp [load, hO, hL, ht, hne]
  · intro ht
    have hload : load w path = .ok sym.fn := by
      simp [load, hO, hL, (isHandlerType_iff _).mpr ht]
    refine ⟨hload, ?_, ?_⟩
    · intro hfresh
      rw [addhandler_of_loaded w s r path sym.fn hb hload, if_neg (by simp [hfresh])]
      exact StrMap.get_set_self _ _ _
    · intro q h hq
      rw [addhandler_of_loaded w s r path sym.fn hb hload] at hq
      by_cases hp : (s.mux.get path).isSome = true
      · simp only [hp, if_true] at hq
        exact Or.inl hq
      · simp only [hp, Bool.false_eq_true, if_false] at hq
        by_cases hqp : q = path
        · subst hqp
          rw [StrMap.get_set_self] at hq
          exact Or.inr ⟨rfl, (Option.some.inj hq).symm⟩
        · rw [StrMap.get_set_ne _ _ _ _ hqp] at hq
          exact Or.inl hq
  · intro hne
    have hf : ¬ isHandlerType sym.typ = true := fun h => hne ((isHandlerType_iff _).mp h)
    have hload : load w path = .error (.fundamental
        ("H has type " ++ sym.typ.describe ++
          ", expected func(w http.ResponseWriter, r *http.Request)") (w.stack 87)) := by
      simp [load, hO, hL, hf]
    refine ⟨⟨_, "H has type ",
      ", expected func(w http.ResponseWriter, r *http.Request)", hload, rfl⟩, ?_⟩
    rw [addhandler_of_load_error w s r path _ hb hload]
    refine ⟨⟨"H has type ",
      ", expected func(w http.ResponseWriter, r *http.Request)" ++ w.stack 87 ++ "\n", ?_⟩,
      rfl, rfl⟩
    simp [Response.body, GoError.formatPlusV, String.append_assoc]

theorem load_type_assertion_witness :
    (addhandler World.wrongFunc main (Request.submit "package main")).2.body =
      some ("H has type func(http.ResponseWriter, *http.Request) error, " ++
        "expected func(w http.ResponseWriter, r *http.Request)\n") ∧
    (addhandler World.wrongFunc main (Request.submit "package main")).1 = main :=
  have h := (load_type_assertion World.wrongFunc main (Request.submit "package main")
    "/tmp/addhandler5/plugin.so" { Lookup := fun _ => .ok { typ := errorHandlerType, fn := 0 } }
    { typ := errorHandlerType, fn := 0 } rfl rfl rfl).2.2
    (by simp [handlerType, errorHandlerType])
  ⟨by decide, h.2.2.2⟩

/-! ## Requests served one after the other -/

theorem longestSubtree_mem (path : String) (m : StrMap Handler) (pat : String) (h : Handler)
    (hl : longestSubtree path m = some (pat, h)) :
    (pat, h) ∈ m ∧ (isSubtree pat && pat.data.isPrefixOf path.data) = true := by
  induction m generalizing pat h with
  | nil => simp [longestSubtree] at hl
  | cons e rest ih =>
    obtain ⟨pat', h'⟩ := e
    simp only [longestSubtree] at hl
    by_cases hc : (isSubtree pat' && pat'.data.isPrefixOf path.data) = true
    · simp only [hc, if_true] at hl
      cases hb : longestSubtree path rest with
      | none =>
        simp only [hb, Option.some.injEq, Prod.mk.injEq] at hl
        obtain ⟨h1, h2⟩ := hl
        subst h1 h2
        exact ⟨List.mem_cons_self _ _, hc⟩
      | some b =>
        obtain ⟨bp, bh⟩ := b
        simp only [hb] at hl
        by_cases hlen : bp.length < pat'.length
        · simp only [hlen, if_true, Option.some.injEq, Prod.mk.injEq] at hl
          obtain ⟨h1, h2⟩ := hl
          subst h1 h2
          exact ⟨List.mem_cons_self _ _, hc⟩
        · simp only [hlen, if_false, Option.some.injEq, Prod.mk.injEq] at hl
          obtain ⟨h1, h2⟩ := hl
          subst h1 h2
          have := ih bp bh hb
          exact ⟨List.mem_cons_of_mem _ this.1, this.2⟩
    · simp only [hc, Bool.false_eq_true, if_false] at hl
      have := ih pat h hl
      exact ⟨List.mem_cons_of_mem _ this.1, this.2⟩

theorem longestSubtree_isSome (path : String) (m : StrMap Handler) (pat : String) (h : Handler)
    (hm : (pat, h) ∈ m) (hc : (isSubtree pat && pat.data.isPrefixOf path.data) = true) :
    (longestSubtree path m).isSome = true := by
  induction m with
  | nil => simp at hm
  | cons e rest ih =>
    obtain ⟨pat', h'⟩ := e
    simp only [longestSubtree]
    by_cases hc' : (isSubtree pat' && pat'.data.isPrefixOf path.data) = true
    · simp only [hc', if_true]
      cases hb : longestSubtree path rest with
      | none => simp
      | some b =>
        obtain ⟨bp, bh⟩ := b
        by_cases hlen : bp.length < pat'.length <;> simp [hlen]
    · simp only [hc', Bool.false_eq_true, if_false]
      rcases List.mem_cons.mp hm with heq | hmem
      · simp only [Prod.mk.injEq] at heq
        rw [heq.1] at hc
        exact absurd hc hc'
      · exact ih hmem

theorem matchPath_mem (m : StrMap Handler) (path : String) (h : Handler)
    (hm : ServeMux.matchPath m path = some h) :
    ∃ pat, (pat, h) ∈ m ∧ pathMatch pat path = true := by
  unfold ServeMux.matchPath at hm
  cases hg : m.get path with
  | some h' =>
    simp only [hg, Option.some.injEq] at hm
    subst hm
    exact ⟨path, StrMap.mem_of_get m path h' hg, by simp [pathMatch]⟩
  | none =>
    simp only [hg] at hm
    cases hl : longestSubtree path m with
    | none => simp [hl] at hm
    | some b =>
      obtain ⟨pat, h'⟩ := b
      simp only [hl, Option.map_some', Option.some.injEq] at hm
      subst hm
      obtain ⟨hmem, hc⟩ := longestSubtree_mem path m pat h' hl
      exact ⟨pat, hmem, by simp [pathMatch, hc]⟩

theorem matchPath_isSome (m : StrMap Handler) (path pat : String) (h : Handler)
    (hmem : (pat, h) ∈ m) (hp : pathMatch pat path = true) :
    (ServeMux.matchPath m path).isSome = true := by
  unfold ServeMux.matchPath
  cases hg : m.get path with
  | some h' => rfl
  | none =>
    simp only [pathMatch, Bool.or_eq_true, beq_iff_eq] at hp
    rcases hp with heq | hsub
    · exfalso
      have hk : path ∈ StrMap.keys m := by
        rw [← heq]
        exact List.mem_map_of_mem Prod.fst hmem
      rw [← StrMap.get_isSome_iff, hg] at hk
      exact absurd hk (by simp)
    · have := longestSubtree_isSome path m pat h hmem hsub
      cases hl : longestSubtree path m with
      | none => rw [hl] at this; exact absurd this (by simp)
      | some b => rfl

theorem handler_mem (m : StrMap Handler) (host path : String) :
    ServeMux.handler m host path = .NotFoundHandler ∨
      ∃ pat, (pat, ServeMux.handler m host path) ∈ m := by
  unfold ServeMux.handler
  cases hfirst : (if ServeMux.hosts m then ServeMux.matchPath m (host ++ path) else none) with
  | some h =>
    simp only
    have hm : ServeMux.matchPath m (host ++ path) = some h := by
      by_cases hh : ServeMux.hosts m = true
      · simpa [hh] using hfirst
      · simp [hh] at hfirst
    obtain ⟨pat, hmem, -⟩ := matchPath_mem m _ h hm
    exact Or.inr ⟨pat, hmem⟩
  | none =>
    simp only
    cases hsecond : ServeMux.matchPath m path with
    | none => exact Or.inl rfl
    | some h =>
      obtain ⟨pat, hmem, -⟩ := matchPath_mem m _ h hsecond
      exact Or.inr ⟨pat, hmem⟩

theorem handler_of_get (m : StrMap Handler) (host path : String) (h : Handler)
    (hg : m.get path = some h)
    (hh : ServeMux.hosts m = false ∨ ServeMux.matchPath m (host ++ path) = none) :
    ServeMux.handler m host path = h := by
  have hfirst : (if ServeMux.hosts m then ServeMux.matchPath m (host ++ path) else none) =
      none := by
    rcases hh with hh | hh
    · simp [hh]
    · simp [hh]
  have hsecond : ServeMux.matchPath m path = some h := by
    simp [ServeMux.matchPath, hg]
  simp only [ServeMux.handler, hfirst, hsecond, Option.getD_some]

theorem shouldRedirect_of_get (m : StrMap Handler) (host path : String) (h : Handler)
    (hg : m.get path = some h) : ServeMux.shouldRedirect m host path = false := by
  simp [ServeMux.shouldRedirect, hg]

theorem Handler_of_canonical (m : StrMap Handler) (r : Request)
    (hc : r.Method = "CONNECT" ∨ cleanPath r.Path = r.Path)
    (hs : ∀ host, ServeMux.shouldRedirect m host r.Path = false) :
    ServeMux.Handler m r = ServeMux.handler m r.muxHost r.Path := by
  unfold ServeMux.Handler Request.muxHost
  by_cases hm : r.Method = "CONNECT"
  · simp [hm, hs]
  · have hp : cleanPath r.Path = r.Path := hc.resolve_left hm
    simp [hm, hp, hs]

theorem Handler_of_get (m : StrMap Handler) (r : Request) (h : Handler)
    (hc : r.Method = "CONNECT" ∨ cleanPath r.Path = r.Path)
    (hg : m.get r.Path = some h)
    (hh : ServeMux.hosts m = false ∨ ServeMux.matchPath m (r.muxHost ++ r.Path) = none) :
    ServeMux.Handler m r = h := by
  rw [Handler_of_canonical m r hc (fun host => shouldRedirect_of_get m host _ h hg)]
  exact handler_of_get m _ _ h hg hh

theorem Handler_redirect_code (s : Server) (h : Inv s) (r : Request) (url : String)
    (code : Nat) (hr : ServeMux.Handler s.mux r = .RedirectHandler url code) : code = 301 := by
  have hreg : ∀ host path, ServeMux.handler s.mux host path ≠ .RedirectHandler url code := by
    intro host path heq
    rcases handler_mem s.mux host path with hn | ⟨pat, hm⟩
    · rw [hn] at heq
      exact absurd heq (by simp)
    · rw [heq] at hm
      exact h.registered pat url code (StrMap.get_of_mem s.mux h.muxNodup pat _ hm)
  unfold ServeMux.Handler at hr
  split at hr
  · split at hr
    · simp only [Handler.RedirectHandler.injEq] at hr
      exact hr.2.symm
    · exact absurd hr (hreg _ _)
  · simp only at hr
    split at hr
    · simp only [Handler.RedirectHandler.injEq] at hr
      exact hr.2.symm
    · split at hr
      · simp only [Handler.RedirectHandler.injEq] at hr
        exact hr.2.symm
      · exact absurd hr (hreg _ _)

theorem matchPath_only_root (s : Server) (h : Inv s) (x : String)
    (hother : ∀ pat, pat ∈ StrMap.keys s.mux → pat ≠ "/" → pathMatch pat x = false) :
    ServeMux.matchPath s.mux x = none ∨ ServeMux.matchPath s.mux x = some .rootHandler := by
  cases hm : ServeMux.matchPath s.mux x with
  | none => exact Or.inl rfl
  | some hd =>
    right
    obtain ⟨pat, hmem, hp⟩ := matchPath_mem s.mux x hd hm
    have hpat : pat = "/" := by
      by_contra hne
      rw [hother pat (List.mem_map_of_mem Prod.fst hmem) hne] at hp
      exact absurd hp (by simp)
    subst hpat
    have hget := StrMap.get_of_mem s.mux h.muxNodup "/" hd hmem
    rw [h.root] at hget
    rw [← Option.some.inj hget]

theorem handler_root (s : Server) (h : Inv s) (host path : String)
    (hroot : pathMatch "/" path = true)
    (hother : ∀ pat, pat ∈ StrMap.keys s.mux → pat ≠ "/" →
      pathMatch pat path = false ∧ pathMatch pat (host ++ path) = false) :
    ServeMux.handler s.mux host path = .rootHandler := by
  have hsecond : ServeMux.matchPath s.mux path = some .rootHandler := by
    rcases matchPath_only_root s h path (fun pat hk hne => (hother pat hk hne).1) with hn | hs
    · have := matchPath_isSome s.mux path "/" .rootHandler
        (StrMap.mem_of_get _ _ _ h.root) hroot
      rw [hn] at this
      exact absurd this (by simp)
    · exact hs
  unfold ServeMux.handler
  by_cases hh : ServeMux.hosts s.mux = true
  · simp only [hh, if_true]
    rcases matchPath_only_root s h (host ++ path)
      (fun pat hk hne => (hother pat hk hne).2) with hn | hs
    · simp only [hn, hsecond, Option.getD_some]
    · simp only [hs]
  · simp only [hh, Bool.false_eq_true, if_false, hsecond, Option.getD_some]

theorem pathMatch_slash_end (s : Server) (h : Inv s) (x pat : String)
    (hx : x.data.getLast? = some '/') (hk : pat ∈ StrMap.keys s.mux) (hne : pat ≠ "/") :
    pathMatch pat x = false := by
  have hns : isSubtree pat = false := by
    cases hs : isSubtree pat with
    | false => rfl
    | true => exact absurd (h.subtree pat hk hs) hne
  have hneq : pat ≠ x := by
    intro heq
    rw [heq] at hns
    simp [isSubtree, hx] at hns
  simp [pathMatch, hns, hneq]

theorem serve_cases (w : World) (s : Server) (r : Request) (h : Inv s) :
    ((serve w s r).1 = s ∧ ∀ path, (serve w s r).2 ≠ [.Redirect path 302]) ∨
    (∃ path fn, s.mux.get path = none ∧ build w (r.FormValue "program") = (path, none) ∧
      load w path = .ok fn ∧
      serve w s r = ({ Data := s.Data.set path (r.FormValue "program"),
                       mux := s.mux.set path (.HandlerFunc fn) }, [.Redirect path 302])) := by
  unfold serve
  cases hh : ServeMux.Handler s.mux r with
  | rootHandler =>
    left
    cases hE : w.ExecuteTemplate s.Data <;> simp [rootHandler, handleError, hE]
  | NotFoundHandler => left; simp
  | HandlerFunc fn => left; simp
  | RedirectHandler url code =>
    left
    have hc := Handler_redirect_code s h r url code hh
    subst hc
    simp
  | addhandler =>
    simp only
    rcases build_cases w (r.FormValue "program") with ⟨e, hb⟩ | ⟨path, hb⟩
    · left
      rw [addhandler_of_build_error w s r "" e hb]
      simp
    · cases hl : load w path with
      | error e =>
        left
        rw [addhandler_of_load_error w s r path e hb hl]
        simp
      | ok fn =>
        rw [addhandler_of_loaded w s r path fn hb hl]
        cases hp : s.mux.get path with
        | some h => left; simp
        | none => right; exact ⟨path, fn, hp, hb, hl, by simp⟩

theorem StrMap.keys_set_of_fresh {V : Type} (m : StrMap V) (k : String) (v : V)
    (h : StrMap.get m k = none) : StrMap.keys (StrMap.set m k v) = k :: StrMap.keys m := by
  rw [StrMap.set_of_fresh m k v h]
  rfl

theorem StrMap.get_set_ne_none {V : Type} (m : StrMap V) (k q : String) (v : V)
    (h : StrMap.get m q ≠ none) : StrMap.get (StrMap.set m k v) q ≠ none := by
  by_cases hq : q = k
  · subst hq
    rw [StrMap.get_set_self]
    simp
  · rw [StrMap.get_set_ne m k q v hq]
    exact h

theorem StrMap.get_set_mono {V : Type} (m : StrMap V) (k q : String) (v v' : V)
    (hk : StrMap.get m k = none) (h : StrMap.get m q = some v') :
    StrMap.get (StrMap.set m k v) q = some v' := by
  have hq : q ≠ k := by
    intro hq
    rw [hq, hk] at h
    exact absurd h (by simp)
  rw [StrMap.get_set_ne m k q v hq]
  exact h

theorem Inv_main : Inv main := by
  refine ⟨?_, by decide, by decide, by decide, by decide, ?_⟩
  · intro p h
    exact absurd rfl h
  · intro pat url code h
    have hm := StrMap.mem_of_get _ _ _ h
    simp [main, StrMap.set, StrMap.erase] at hm

theorem Inv_serve (w : World) (s : Server) (r : Request) (h : Inv s) : Inv (serve w s r).1 := by
  rcases serve_cases w s r h with ⟨hs, -⟩ | ⟨path, fn, hfresh, hb, -, hs⟩
  · rw [hs]
    exact h
  · rw [hs]
    have hd : s.Data.get path = none := by
      by_contra hne
      exact h.covered path hne hfresh
    refine ⟨?_, ?_, ?_, ?_, ?_, ?_⟩
    · intro p hp
      by_cases hpp : p = path
      · subst hpp
        show StrMap.get (StrMap.set s.mux p _) p ≠ none
        rw [StrMap.get_set_self]
        simp
      · apply StrMap.get_set_ne_none
        apply h.covered
        have hp' : StrMap.get (StrMap.set s.Data path (r.FormValue "program")) p ≠ none := hp
        rwa [StrMap.get_set_ne _ _ _ _ hpp] at hp'
    · exact StrMap.get_set_mono _ _ _ _ _ hfresh h.root
    · show (StrMap.keys (StrMap.set s.mux path _)).Nodup
      rw [StrMap.keys_set_of_fresh _ _ _ hfresh]
      exact List.nodup_cons.mpr ⟨(StrMap.get_eq_none_iff _ _).mp hfresh, h.muxNodup⟩
    · show (StrMap.keys (StrMap.set s.Data path _)).Nodup
      rw [StrMap.keys_set_of_fresh _ _ _ hd]
      exact List.nodup_cons.mpr ⟨(StrMap.get_eq_none_iff _ _).mp hd, h.dataNodup⟩
    · intro pat hpat hsub
      have hpat' : pat ∈ StrMap.keys (StrMap.set s.mux path (.HandlerFunc fn)) := hpat
      rw [StrMap.keys_set_of_fresh _ _ _ hfresh] at hpat'
      rcases List.mem_cons.mp hpat' with heq | hold
      · rw [heq] at hsub ⊢
        exact build_ok_subtree w _ path hb hsub
      · exact h.subtree pat hold hsub
    · intro pat url code hg
      have hg' : StrMap.get (StrMap.set s.mux path (.HandlerFunc fn)) pat =
          some (.RedirectHandler url code) := hg
      by_cases hpp : pat = path
      · rw [hpp, StrMap.get_set_self] at hg'
        simp at hg'
      · rw [StrMap.get_set_ne _ _ _ _ hpp] at hg'
        exact h.registered pat url code hg'

theorem Inv_run (reqs : List (World × Request)) (s : Server) (h : Inv s) : Inv (run s reqs) := by
  induction reqs generalizing s with
  | nil => exact h
  | cons wr rest ih =>
    obtain ⟨w, r⟩ := wr
    exact ih _ (Inv_serve w s r h)

theorem serve_preserves (w : World) (s : Server) (r : Request) (h : Inv s) :
    (∀ p src, s.Data.get p = some src → (serve w s r).1.Data.get p = some src) ∧
    (∀ p hd, s.mux.get p = some hd → (serve w s r).1.mux.get p = some hd) := by
  rcases serve_cases w s r h with ⟨hs, -⟩ | ⟨path, fn, hfresh, -, -, hs⟩
  · rw [hs]
    exact ⟨fun _ _ h => h, fun _ _ h => h⟩
  · rw [hs]
    have hd : s.Data.get path = none := by
      by_contra hne
      exact h.covered path hne hfresh
    exact ⟨fun p src hp => StrMap.get_set_mono _ _ _ _ _ hd hp,
      fun p hh hp => StrMap.get_set_mono _ _ _ _ _ hfresh hp⟩

theorem run_preserves (reqs : List (World × Request)) (s : Server) (h : Inv s) :
    (∀ p src, s.Data.get p = some src → (run s reqs).Data.get p = some src) ∧
    (∀ p hd, s.mux.get p = some hd → (run s reqs).mux.get p = some hd) := by
  induction reqs generalizing s with
  | nil => exact ⟨fun _ _ h => h, fun _ _ h => h⟩
  | cons wr rest ih =>
    obtain ⟨w, r⟩ := wr
    have h1 := serve_preserves w s r h
    have h2 := ih _ (Inv_serve w s r h)
    exact ⟨fun p src hp => h2.1 p src (h1.1 p src hp),
      fun p hd hp => h2.2 p hd (h1.2 p hd hp)⟩

theorem run_write_once (reqs0 reqs : List (World × Request)) :
    (∀ p src, (run main reqs0).Data.get p = some src →
      (run (run main reqs0) reqs).Data.get p = some src) ∧
    (∀ p hd, (run main reqs0).mux.get p = some hd →
      (run (run main reqs0) reqs).mux.get p = some hd) :=
  run_preserves reqs (run main reqs0) (Inv_run reqs0 main Inv_main)

theorem run_data (reqs : List (World × Request)) (s : Server) (h : Inv s) :
    (run s reqs).Data = (successes s reqs).reverse ++ s.Data := by
  induction reqs generalizing s with
  | nil => rfl
  | cons wr rest ih =>
    obtain ⟨w, r⟩ := wr
    have hinv := Inv_serve w s r h
    have hrest := ih _ hinv
    rcases serve_cases w s r h with ⟨hs, hne⟩ | ⟨path, fn, hfresh, -, -, hs⟩
    · have hsucc : successes s ((w, r) :: rest) = successes (serve w s r).1 rest := by
        simp only [successes]
      simp only [run]
      rw [hrest, hsucc, hs]
    · have hd : s.Data.get path = none := by
        by_contra hne
        exact h.covered path hne hfresh
      have hsucc : successes s ((w, r) :: rest) =
          (path, r.FormValue "program") :: successes (serve w s r).1 rest := by
        simp only [successes, hs]
      simp only [run]
      rw [hrest, hsucc, hs]
      show _ ++ StrMap.set s.Data path _ = _
      rw [StrMap.set_of_fresh _ _ _ hd]
      simp

theorem serve_root (w : World) (s : Server) (r : Request) (h : Inv s) (hr : r.Path = "/") :
    (serve w s r).2.head? = some (.ExecuteTemplate "index.html" s.Data) := by
  have hc : r.Method = "CONNECT" ∨ cleanPath r.Path = r.Path := by
    right
    rw [hr]
    decide
  have hg : s.mux.get r.Path = some .rootHandler := by
    rw [hr]
    exact h.root
  have hh : ServeMux.Handler s.mux r = .rootHandler := by
    rw [Handler_of_canonical s.mux r hc (fun host => shouldRedirect_of_get _ host _ _ hg), hr]
    apply handler_root s h
    · decide
    · intro pat hk hne
      refine ⟨pathMatch_slash_end s h "/" pat (by decide) hk hne,
        pathMatch_slash_end s h _ pat ?_ hk hne⟩
      simp [String.data_append]
  simp only [serve, hh, rootHandler]
  cases w.ExecuteTemplate s.Data <;> simp [handleError]

/-- C5: starting from the empty Registry of `main`, after any sequence of requests, the
data the Listing View hands to the template is the map made of exactly the pairs of path
and source of the submissions that succeeded: the map is a rearrangement of that list of
pairs, so none is missing and none comes from a failed submission, it has as many entries
as there were successes, and no path occurs twice. -/
theorem listing_exact (reqs : List (World × Request)) (w : World) (r : Request) :
    r.Path = "/" →
    (serve w (run main reqs) r).2.head? =
      some (.ExecuteTemplate "index.html" (run main reqs).Data) ∧
    List.Perm (run main reqs).Data (successes main reqs) ∧
    (run main reqs).Data.length = (successes main reqs).length ∧
    (∀ p src, (run main reqs).Data.get p = some src ↔ (p, src) ∈ successes main reqs) ∧
    (StrMap.keys (run main reqs).Data).Nodup ∧
    ((successes main reqs).map Prod.fst).Nodup := by
  intro hr
  have hinv := Inv_run reqs main Inv_main
  have hdata : (run main reqs).Data = (successes main reqs).reverse := by
    rw [run_data reqs main Inv_main]
    simp [main]
  have hperm : List.Perm (run main reqs).Data (successes main reqs) := by
    rw [hdata]
    exact List.reverse_perm _
  have hnodup : ((successes main reqs).map Prod.fst).Nodup :=
    (List.Perm.nodup_iff (hperm.map Prod.fst)).mp hinv.dataNodup
  refine ⟨serve_root w _ r hinv hr, hperm, hperm.length_eq, ?_, hinv.dataNodup, hnodup⟩
  intro p src
  rw [← hperm.mem_iff]
  exact StrMap.get_eq_some_iff _ hinv.dataNodup p src

theorem listing_exact_witness :
    (serve (World.good "/tmp/addhandler1" 7)
      (run main [(World.good "/tmp/addhandler1" 7, Request.submit "package a"),
                 (World.compileError, Request.submit "package b"),
                 (World.good "/tmp/addhandler4" 9, Request.submit "package c")])
      (Request.fetch "GET" "/")).2.head? =
    some (.ExecuteTemplate "index.html"
      [("/tmp/addhandler4/plugin.so", "package c"),
       ("/tmp/addhandler1/plugin.so", "package a")]) :=
  (listing_exact [(World.good "/tmp/addhandler1" 7, Request.submit "package a"),
                 (World.compileError, Request.submit "package b"),
                 (World.good "/tmp/addhandler4" 9, Request.submit "package c")]
    (World.good "/tmp/addhandler1" 7) (Request.fetch "GET" "/") rfl).1

/-! ## Dispatch -/

theorem isSubtree_append_slash (path : String) : isSubtree (path ++ "/") = true := by
  simp [isSubtree, String.data_append]

theorem append_slash_ne_root (path : String) (hne : path ≠ "") : path ++ "/" ≠ "/" := by
  intro h
  have hd := congrArg String.data h
  simp only [String.data_append] at hd
  have hnil : path.data = [] := by
    have hl := congrArg List.length hd
    simp at hl
    exact List.length_eq_zero.mp hl
  exact hne (String.ext hnil)

theorem shouldRedirect_false (s : Server) (h : Inv s) (host path : String) :
    ServeMux.shouldRedirect s.mux host path = false := by
  unfold ServeMux.shouldRedirect
  split
  · rfl
  · split
    · rfl
    · next hne =>
      split
      · next hg =>
        exfalso
        simp only [Bool.or_eq_true] at hg
        rcases hg with hg | hg
        · have hk := (StrMap.get_isSome_iff _ _).mp hg
          exact append_slash_ne_root path hne
            (h.subtree _ hk (isSubtree_append_slash path))
        · have hk := (StrMap.get_isSome_iff _ _).mp hg
          have hroot := h.subtree _ hk (isSubtree_append_slash (host ++ path))
          have hhp : host ++ path ≠ "" := by
            intro he
            have hd := congrArg String.data he
            simp only [String.data_append] at hd
            have hp0 : path.data = [] := (List.append_eq_nil.mp hd).2
            exact hne (String.ext hp0)
          exact append_slash_ne_root _ hhp hroot
      · rfl

theorem Handler_noncanonical (s : Server) (h : Inv s) (r : Request)
    (hm : r.Method ≠ "CONNECT") (hp : cleanPath r.Path ≠ r.Path) :
    ServeMux.Handler s.mux r = .RedirectHandler (cleanPath r.Path) 301 := by
  unfold ServeMux.Handler
  simp [hm, hp, shouldRedirect_false s h]

theorem serve_of_plugin (w : World) (s : Server) (r : Request) (fn : Nat)
    (h : ServeMux.Handler s.mux r = .HandlerFunc fn) : serve w s r = (s, [.Plugin fn]) := by
  simp only [serve, h]

theorem serve_of_root (w : World) (s : Server) (r : Request)
    (h : ServeMux.Handler s.mux r = .rootHandler) :
    (serve w s r).2.head? = some (.ExecuteTemplate "index.html" s.Data) := by
  simp only [serve, h, rootHandler]
  cases w.ExecuteTemplate s.Data <;> simp [handleError]

theorem serve_of_redirect (w : World) (s : Server) (r : Request) (url : String) (code : Nat)
    (h : ServeMux.Handler s.mux r = .RedirectHandler url code) :
    serve w s r = (s, [.Redirect url code]) := by
  simp only [serve, h]

/-- C8, as the code has it: after a submission has succeeded with path `p` and loaded
function `fn`, every later request whose URL path is `p`, whatever its method, is
dispatched by the Router to that function, hence not to the Listing View, the pipeline or
the not-found handler, provided `p` is in the canonical form of the mux, as every artifact
path that begins with a slash is, or the method is `CONNECT`, and provided no pattern is
matched by the host of the request followed by `p`, as none is while every registered
pattern begins with a slash.  In every state, a request with a canonical path, or with
the method `CONNECT`, that is matched by the pattern `/` and by no other registered
pattern, neither on its path nor on its host followed by the path, is dispatched to the
Listing View.  A request with another method and a path that is not canonical is
answered by the mux with a permanent redirect to the canonical path, and no handler of
the program runs. -/
theorem dispatch_after_success (reqs0 reqs : List (World × Request)) (w w' : World)
    (r r' : Request) (p : String) (fn : Nat) :
    ((serve w (run main reqs0) r).2 = [.Redirect p 302] → load w p = .ok fn →
      r'.Path = p → (r'.Method = "CONNECT" ∨ cleanPath p = p) →
      (ServeMux.hosts (run (serve w (run main reqs0) r).1 reqs).mux = false ∨
        ServeMux.matchPath (run (serve w (run main reqs0) r).1 reqs).mux
          (r'.muxHost ++ p) = none) →
      ServeMux.Handler (run (serve w (run main reqs0) r).1 reqs).mux r' =
        .HandlerFunc fn ∧
      serve w' (run (serve w (run main reqs0) r).1 reqs) r' =
        (run (serve w (run main reqs0) r).1 reqs, [.Plugin fn])) ∧
    ((serve w (run main reqs0) r).2 = [.Redirect p 302] → p.data.head? = some '/' →
      cleanPath p = p) ∧
    ((r'.Method = "CONNECT" ∨ cleanPath r'.Path = r'.Path) →
      pathMatch "/" r'.Path = true →
      (∀ pat, pat ∈ StrMap.keys (run main reqs).mux → pat ≠ "/" →
        pathMatch pat r'.Path = false ∧ pathMatch pat (r'.muxHost ++ r'.Path) = false) →
      ServeMux.Handler (run main reqs).mux r' = .rootHandler ∧
      (serve w' (run main reqs) r').2.head? =
        some (.ExecuteTemplate "index.html" (run main reqs).Data)) ∧
    (r'.Method ≠ "CONNECT" → cleanPath r'.Path ≠ r'.Path →
      ServeMux.Handler (run main reqs).mux r' = .RedirectHandler (cleanPath r'.Path) 301 ∧
      serve w' (run main reqs) r' =
        (run main reqs, [.Redirect (cleanPath r'.Path) 301])) := by
  refine ⟨?_, ?_, ?_, ?_⟩
  · intro hsucc hload hpath hcanon hhost
    have hinv0 := Inv_run reqs0 main Inv_main
    have hinv1 := Inv_serve w _ r hinv0
    rcases serve_cases w (run main reqs0) r hinv0 with ⟨-, hne⟩ | ⟨path, fn', -, -, hl, hs⟩
    · exact absurd hsucc (hne p)
    · have hpp : path = p := by
        rw [hs] at hsucc
        simpa using hsucc
      subst hpp
      have hfn : fn' = fn := by
        rw [hl] at hload
        exact Except.ok.inj hload
      subst hfn
      have hget1 : (serve w (run main reqs0) r).1.mux.get path = some (.HandlerFunc fn') := by
        rw [hs]
        exact StrMap.get_set_self _ _ _
      have hget := (run_preserves reqs _ hinv1).2 path _ hget1
      rw [← hpath] at hget hcanon hhost
      have hh := Handler_of_get _ r' _ hcanon hget hhost
      exact ⟨hh, serve_of_plugin w' _ r' fn' hh⟩
  · intro hsucc hrooted
    have hinv0 := Inv_run reqs0 main Inv_main
    rcases serve_cases w (run main reqs0) r hinv0 with ⟨-, hne⟩ | ⟨path, fn', -, hb, -, hs⟩
    · exact absurd hsucc (hne p)
    · have hpp : path = p := by
        rw [hs] at hsucc
        simpa using hsucc
      subst hpp
      exact cleanPath_build w _ path hb hrooted
  · intro hcanon hroot hother
    have hinv := Inv_run reqs main Inv_main
    have hh : ServeMux.Handler (run main reqs).mux r' = .rootHandler := by
      rw [Handler_of_canonical _ r' hcanon (fun host => shouldRedirect_false _ hinv host _)]
      exact handler_root _ hinv _ r'.Path hroot hother
    exact ⟨hh, serve_of_root w' _ r' hh⟩
  · intro hm hp
    have hinv := Inv_run reqs main Inv_main
    have hh := Handler_noncanonical _ hinv r' hm hp
    exact ⟨hh, serve_of_redirect w' _ r' _ _ hh⟩

theorem dispatch_after_success_witness :
    ServeMux.Handler
      (run (serve (World.good "/tmp/addhandler1" 7) main (Request.submit "package a")).1
        [(World.good "/tmp/addhandler4" 9, Request.submit "package c")]).mux
      (Request.fetch "DELETE" samplePath) = .HandlerFunc 7 ∧
    ServeMux.Handler
      (run main [(World.good "/tmp/addhandler4" 9, Request.submit "package c")]).mux
      (Request.fetch "PUT" "/tmp/other") = .rootHandler ∧
    ServeMux.Handler
      (run main [(World.good "/tmp/addhandler4" 9, Request.submit "package c")]).mux
      (Request.fetch "GET" "/tmp//other") = .RedirectHandler "/tmp/other" 301 :=
  have h := dispatch_after_success [] [(World.good "/tmp/addhandler4" 9, Request.submit "package c")]
    (World.good "/tmp/addhandler1" 7) (World.good "/tmp/addhandler1" 7)
    (Request.submit "package a") (Request.fetch "DELETE" samplePath) samplePath 7
  have h2 := dispatch_after_success [] [(World.good "/tmp/addhandler4" 9, Request.submit "package c")]
    (World.good "/tmp/addhandler1" 7) (World.good "/tmp/addhandler1" 7)
    (Request.submit "package a") (Request.fetch "PUT" "/tmp/other") samplePath 7
  have h3 := dispatch_after_success [] [(World.good "/tmp/addhandler4" 9, Request.submit "package c")]
    (World.good "/tmp/addhandler1" 7) (World.good "/tmp/addhandler1" 7)
    (Request.submit "package a") (Request.fetch "GET" "/tmp//other") samplePath 7
  ⟨(h.1 rfl rfl rfl (Or.inr (h.2.1 rfl (by decide))) (Or.inl (by decide))).1,
    (h2.2.2.1 (Or.inr (by decide)) (by decide) (by decide)).1,
    (h3.2.2.2 (by decide) (by decide)).1⟩

/-- C8 fails as stated.  In the state `main` sets up, the path `//x` is matched by the
pattern `/` and by no other registered pattern, yet a `GET` request for it is not
dispatched to the Listing View: the mux answers with a permanent redirect to `/x`, and
the template is not run.  And after a submission built in the relative directory
`tmp/addhandler9`, whose artifact path the mux takes as a pattern for the host `tmp`, a
`GET` request with that host for the path `/addhandler9/plugin.so`, which no pattern but
`/` matches, runs the loaded function and not the Listing View. -/
theorem unclean_path_not_listed :
    (pathMatch "/" "//x" = true ∧
      (∀ pat, pat ∈ StrMap.keys main.mux → pat ≠ "/" → pathMatch pat "//x" = false) ∧
      ServeMux.Handler main.mux (Request.fetch "GET" "//x") = .RedirectHandler "/x" 301 ∧
      serve (World.good "/tmp/addhandler1" 7) main (Request.fetch "GET" "//x") =
        (main, [.Redirect "/x" 301])) ∧
    (pathMatch "/" "/addhandler9/plugin.so" = true ∧
      (∀ pat, pat ∈ StrMap.keys
          (serve (World.good "tmp/addhandler9" 9) main (Request.submit "package a")).1.mux →
        pat ≠ "/" → pathMatch pat "/addhandler9/plugin.so" = false) ∧
      cleanPath "/addhandler9/plugin.so" = "/addhandler9/plugin.so" ∧
      ServeMux.Handler
        (serve (World.good "tmp/addhandler9" 9) main (Request.submit "package a")).1.mux
        { Request.fetch "GET" "/addhandler9/plugin.so" with Host := "tmp", HostName := "tmp" } =
        .HandlerFunc 9) := by
  refine ⟨⟨by decide, by decide, by decide, by decide⟩,
    ⟨by decide, by decide, by decide, by decide⟩⟩

/-! ## Requests served concurrently -/

theorem reachable_exec {σ σ' : System} (sched : List Nat) (h : Reachable σ)
    (he : exec sched σ = some σ') : Reachable σ' := by
  induction sched generalizing σ with
  | nil =>
    simp only [Addhandler.exec, Option.some.injEq] at he
    rw [← he]
    exact h
  | cons i rest ih =>
    simp only [Addhandler.exec] at he
    cases hs : step i σ with
    | none => simp [hs] at he
    | some σ1 =>
      simp only [hs] at he
      exact ih (Reachable.step i h hs) he

theorem Handle_ok (mux mux' : StrMap Handler) (pattern : String) (h : Handler)
    (hk : ServeMux.Handle mux pattern h = .ok mux') :
    mux.get pattern = none ∧ mux' = mux.set pattern h := by
  unfold ServeMux.Handle at hk
  by_cases hp : pattern = ""
  · simp [hp] at hk
  · cases hg : mux.get pattern with
    | some hd => simp [hp, hg] at hk
    | none =>
      simp only [hp, hg, if_false, Option.isSome_none, Bool.false_eq_true,
        Except.ok.injEq] at hk
      exact ⟨rfl, hk.symm⟩

theorem SysInv_goto (σ : System) (i : Nat) (t : Task) (h : SysInv σ)
    (ht : ∀ p, t.registered = some p → σ.srv.mux.get p ≠ none) : SysInv (σ.goto i t) := by
  refine ⟨h.covered, ?_⟩
  intro t' hmem p hp
  rcases List.mem_or_eq_of_mem_set hmem with hold | hnew
  · exact h.pending t' hold p hp
  · subst hnew
    exact ht p hp

theorem SysInv_lock (σ : System) (l : Option Nat) (h : SysInv σ) :
    SysInv { σ with lock := l } :=
  ⟨h.covered, h.pending⟩

theorem SysInv_boot : SysInv boot :=
  ⟨fun _ h => absurd rfl h, fun _ h => absurd h (List.not_mem_nil _)⟩

theorem SysInv_arrive (σ : System) (w : World) (r : Request) (h : SysInv σ) :
    SysInv (arrive σ w r) := by
  refine ⟨h.covered, ?_⟩
  intro t hmem p hp
  simp only [arrive, List.mem_append, List.mem_singleton] at hmem
  rcases hmem with hold | hnew
  · exact h.pending t hold p hp
  · subst hnew
    revert hp
    cases ServeMux.Handler σ.srv.mux r <;> simp [Task.registered]

theorem SysInv_step (i : Nat) (σ σ' : System) (h : SysInv σ) (hs : step i σ = some σ') :
    SysInv σ' := by
  unfold step at hs
  cases ht : σ.tasks[i]? with
  | none => simp [ht] at hs
  | some t =>
    have hmem : t ∈ σ.tasks := List.getElem?_mem ht
    cases t with
    | addStart w r =>
      simp only [ht] at hs
      rcases build_cases w (r.FormValue "program") with ⟨e, hb⟩ | ⟨path, hb⟩
      · simp only [hb, Option.some.injEq] at hs
        rw [← hs]
        exact SysInv_goto σ i _ h (by simp [Task.registered])
      · cases hl : load w path with
        | error e =>
          simp only [hb, hl, Option.some.injEq] at hs
          rw [← hs]
          exact SysInv_goto σ i _ h (by simp [Task.registered])
        | ok fn =>
          simp only [hb, hl, Option.some.injEq] at hs
          rw [← hs]
          exact SysInv_goto σ i _ h (by simp [Task.registered])
    | addHandle path fn program =>
      simp only [ht] at hs
      cases hk : ServeMux.Handle σ.srv.mux path (.HandlerFunc fn) with
      | error msg =>
        simp only [hk, Option.some.injEq] at hs
        rw [← hs]
        exact SysInv_goto σ i _ h (by simp [Task.registered])
      | ok mux' =>
        simp only [hk, Option.some.injEq] at hs
        obtain ⟨-, hmux⟩ := Handle_ok _ _ _ _ hk
        rw [← hs]
        apply SysInv_goto
        · refine ⟨?_, ?_⟩
          · intro p hp
            show StrMap.get mux' p ≠ none
            rw [hmux]
            exact StrMap.get_set_ne_none _ _ _ _ (h.covered p hp)
          · intro t' hmem' p hp
            show StrMap.get mux' p ≠ none
            rw [hmux]
            exact StrMap.get_set_ne_none _ _ _ _ (h.pending t' hmem' p hp)
        · intro p hp
          simp only [Task.registered, Option.some.injEq] at hp
          show StrMap.get mux' p ≠ none
          rw [hmux, ← hp, StrMap.get_set_self]
          simp
    | addLock path program =>
      simp only [ht] at hs
      by_cases hlock : σ.lock = none
      · simp only [hlock, if_true, Option.some.injEq] at hs
        rw [← hs]
        apply SysInv_goto _ _ _ (SysInv_lock σ _ h)
        intro p hp
        exact h.pending _ hmem p hp
      · simp [hlock] at hs
    | addWrite path program =>
      simp only [ht, Option.some.injEq] at hs
      rw [← hs]
      apply SysInv_goto
      · refine ⟨?_, h.pending⟩
        intro p hp
        have hp' : StrMap.get (StrMap.set σ.srv.Data path program) p ≠ none := hp
        by_cases hpp : p = path
        · rw [hpp]
          exact h.pending _ hmem path rfl
        · rw [StrMap.get_set_ne _ _ _ _ hpp] at hp'
          exact h.covered p hp'
      · simp [Task.registered]
    | addUnlock path =>
      simp only [ht, Option.some.injEq] at hs
      rw [← hs]
      exact SysInv_goto _ _ _ (SysInv_lock σ _ h) (by simp [Task.registered])
    | addRedirect path =>
      simp only [ht, Option.some.injEq] at hs
      rw [← hs]
      exact SysInv_goto _ _ _ h (by simp [Task.registered])
    | rootLock w =>
      simp only [ht] at hs
      by_cases hlock : σ.lock = none
      · simp only [hlock, if_true, Option.some.injEq] at hs
        rw [← hs]
        exact SysInv_goto _ _ _ (SysInv_lock σ _ h) (by simp [Task.registered])
      · simp [hlock] at hs
    | rootCopy w =>
      simp only [ht, Option.some.injEq] at hs
      rw [← hs]
      exact SysInv_goto _ _ _ h (by simp [Task.registered])
    | rootUnlock w data =>
      simp only [ht, Option.some.injEq] at hs
      rw [← hs]
      exact SysInv_goto _ _ _ (SysInv_lock σ _ h) (by simp [Task.registered])
    | rootRender w data =>
      simp only [ht, Option.some.injEq] at hs
      rw [← hs]
      exact SysInv_goto _ _ _ h (by simp [Task.registered])
    | done resp => simp [ht] at hs

theorem SysInv_of_reachable (σ : System) (h : Reachable σ) : SysInv σ := by
  induction h with
  | boot => exact SysInv_boot
  | arrive w r _ ih => exact SysInv_arrive _ w r ih
  | step i _ hs ih => exact SysInv_step i _ _ ih hs

/-- C3: in every state the running server can reach, the states between the two updates
of a submission included, every path that is a key of the Registry has a handler in the
Router, and so has the path of every submission that is between its Router insert and its
Registry insert: the Router insert of a path comes no later than its Registry insert. -/
theorem registry_covered_by_router (σ : System) (h : Reachable σ) :
    (∀ p, p ∈ StrMap.keys σ.srv.Data → ∃ hd, σ.srv.mux.get p = some hd) ∧
    (∀ t, t ∈ σ.tasks → ∀ p, t.registered = some p → ∃ hd, σ.srv.mux.get p = some hd) := by
  have hinv := SysInv_of_reachable σ h
  constructor
  · intro p hp
    have hd : σ.srv.Data.get p ≠ none := by
      rw [Ne, StrMap.get_eq_none_iff]
      exact fun hn => hn hp
    exact Option.ne_none_iff_exists'.mp (hinv.covered p hd)
  · intro t ht p hp
    exact Option.ne_none_iff_exists'.mp (hinv.pending t ht p hp)

theorem registry_covered_by_router_witness :
    ∃ hd, System.written.srv.mux.get samplePath = some hd :=
  (registry_covered_by_router System.written
    (reachable_exec [0, 0, 0, 0]
      (Reachable.arrive (World.good "/tmp/addhandler1" 7) (Request.submit "package main")
        Reachable.boot)
      (rfl : exec [0, 0, 0, 0] System.submitting = some System.written))).1
    samplePath (by decide)

/-- C9, as the code has it: the two inserts of a submission are two separate steps.  The
first, `mux.HandleFunc`, inserts the handler into the Router, leaves the Registry as it
was and does not take the lock of `store`; after it the Router holds the path and the
Registry does not, with the lock free.  The Registry insert follows as a later step,
taken while holding that lock, and leaves the Router as it was.  In none of these states
does the Registry hold a path that the Router lacks. -/
theorem router_insert_then_registry_insert (σ : System) (hr : Reachable σ) (i : Nat)
    (path : String) (fn : Nat) (program : String)
    (ht : σ.tasks[i]? = some (.addHandle path fn program))
    (hfresh : σ.srv.mux.get path = none) (hne : path ≠ "") (hfree : σ.lock = none) :
    ∃ σ1 σ2 σ3, step i σ = some σ1 ∧ step i σ1 = some σ2 ∧ step i σ2 = some σ3 ∧
      (σ1.srv.mux = σ.srv.mux.set path (.HandlerFunc fn) ∧ σ1.srv.Data = σ.srv.Data ∧
        σ1.lock = none) ∧
      (σ1.srv.mux.get path = some (.HandlerFunc fn) ∧ σ1.srv.Data.get path = none) ∧
      (σ2.srv = σ1.srv ∧ σ2.lock = some i) ∧
      (σ3.srv.mux = σ1.srv.mux ∧ σ3.srv.Data = σ.srv.Data.set path program ∧
        σ3.lock = some i) ∧
      (σ3.srv.mux.get path = some (.HandlerFunc fn) ∧ σ3.srv.Data.get path = some program) ∧
      (∀ τ, τ = σ1 ∨ τ = σ2 ∨ τ = σ3 →
        ∀ p, τ.srv.Data.get p ≠ none → τ.srv.mux.get p ≠ none) := by
  have hset : ∀ (τ : System) (t : Task), τ.tasks = σ.tasks → (τ.goto i t).tasks[i]? = some t := by
    intro τ t hτ
    simp [System.goto, hτ, List.getElem?_set_self', ht]
  have hk : ServeMux.Handle σ.srv.mux path (.HandlerFunc fn) =
      .ok (σ.srv.mux.set path (.HandlerFunc fn)) := by
    simp [ServeMux.Handle, hne, hfresh]
  let σ1 : System :=
    { σ with srv := { σ.srv with mux := σ.srv.mux.set path (.HandlerFunc fn) } }.goto i
      (.addLock path program)
  let σ2 : System := { σ1 with lock := some i }.goto i (.addWrite path program)
  let σ3 : System :=
    { σ2 with srv := { σ2.srv with Data := σ2.srv.Data.set path program } }.goto i
      (.addUnlock path)
  have h1 : step i σ = some σ1 := by
    simp only [step, ht, hk]
  have h2 : step i σ1 = some σ2 := by
    have hl : σ1.lock = none := hfree
    have ht1 : σ1.tasks[i]? = some (.addLock path program) := hset _ _ rfl
    simp only [step, ht1, hl, if_true]
  have h3 : step i σ2 = some σ3 := by
    have ht2 : σ2.tasks[i]? = some (.addWrite path program) := by
      simp [σ2, σ1, System.goto, List.getElem?_set_self', ht]
    simp only [step, ht2]
  have hr1 : Reachable σ1 := Reachable.step i hr h1
  have hr2 : Reachable σ2 := Reachable.step i hr1 h2
  have hr3 : Reachable σ3 := Reachable.step i hr2 h3
  have hdata : σ.srv.Data.get path = none := by
    by_contra hc
    exact (SysInv_of_reachable σ hr).covered path hc hfresh
  refine ⟨σ1, σ2, σ3, h1, h2, h3, ⟨rfl, rfl, hfree⟩, ⟨StrMap.get_set_self _ _ _, hdata⟩,
    ⟨rfl, rfl⟩, ⟨rfl, rfl, rfl⟩, ⟨StrMap.get_set_self _ _ _, StrMap.get_set_self _ _ _⟩, ?_⟩
  rintro τ (hτ | hτ | hτ) <;> rw [hτ]
  · exact (SysInv_of_reachable σ1 hr1).covered
  · exact (SysInv_of_reachable σ2 hr2).covered
  · exact (SysInv_of_reachable σ3 hr3).covered

theorem router_insert_then_registry_insert_witness :
    ∃ σ1 σ2 σ3, step 0 System.loaded = some σ1 ∧ step 0 σ1 = some σ2 ∧
      step 0 σ2 = some σ3 ∧
      (σ1.srv.mux = System.loaded.srv.mux.set samplePath (.HandlerFunc 7) ∧
        σ1.srv.Data = System.loaded.srv.Data ∧ σ1.lock = none) ∧
      (σ1.srv.mux.get samplePath = some (.HandlerFunc 7) ∧
        σ1.srv.Data.get samplePath = none) ∧
      (σ2.srv = σ1.srv ∧ σ2.lock = some 0) ∧
      (σ3.srv.mux = σ1.srv.mux ∧
        σ3.srv.Data = System.loaded.srv.Data.set samplePath "package main" ∧
        σ3.lock = some 0) ∧
      (σ3.srv.mux.get samplePath = some (.HandlerFunc 7) ∧
        σ3.srv.Data.get samplePath = some "package main") ∧
      (∀ τ, τ = σ1 ∨ τ = σ2 ∨ τ = σ3 →
        ∀ p, τ.srv.Data.get p ≠ none → τ.srv.mux.get p ≠ none) :=
  router_insert_then_registry_insert System.loaded
    (reachable_exec [0]
      (Reachable.arrive (World.good "/tmp/addhandler1" 7) (Request.submit "package main")
        Reachable.boot)
      (rfl : exec [0] System.submitting = some System.loaded))
    0 samplePath 7 "package main" rfl rfl (by decide) rfl

/-- C9 fails as stated: with a listing request (task 0) and a submission (task 1) in
flight, after the submission has called `mux.HandleFunc` the listing request runs to its
end.  The Router then maps the path to the loaded function, the Registry does not hold
the path, the lock is free, and the listing was rendered without the path. -/
theorem router_only_state_observed :
    (exec [1, 1, 0, 0, 0, 0] System.racing).map
      (fun σ => (σ.srv.mux.get samplePath, σ.srv.Data.get samplePath, σ.lock,
        (σ.tasks[0]?).bind Task.response)) =
    some (some (.HandlerFunc 7), none, none, some [.ExecuteTemplate "index.html" []]) := by
  rfl

/-- C10 fails on the code: the listing request (task 0) takes the lock, copies the map
reference and releases the lock while the Registry is empty; the submission (task 1) then
commits its registration; the template run of the listing request, which happens with the
lock free, reads the map with the new pair in it. -/
theorem listing_reads_map_after_unlock :
    (exec [0, 0] System.racing).map (fun σ => (σ.lock, σ.srv.Data)) = some (some 0, []) ∧
    (exec [0, 0, 0] System.racing).map (fun σ => (σ.lock, σ.srv.Data)) = some (none, []) ∧
    (exec [0, 0, 0, 1, 1, 1, 1, 1, 1] System.racing).map (fun σ => (σ.lock, σ.srv.Data)) =
      some (none, [(samplePath, "package main")]) ∧
    (exec [0, 0, 0, 1, 1, 1, 1, 1, 1, 0] System.racing).bind
      (fun σ => (σ.tasks[0]?).bind Task.response) =
      some [.ExecuteTemplate "index.html" [(samplePath, "package main")]] := by
  refine ⟨rfl, rfl, rfl, rfl⟩

/-! ## Uninterrupted requests inside the concurrent system -/

theorem goto_last (srv : Server) (lock : Option Nat) (l : List Task) (t t' : Task) :
    (System.mk srv lock (l ++ [t])).goto l.length t' = ⟨srv, lock, l ++ [t']⟩ := by
  simp [System.goto]

theorem serve_simulated (srv : Server) (l : List Task) (w : World) (r : Request) :
    ∃ sched, exec sched (arrive ⟨srv, none, l⟩ w r) =
      some ⟨(serve w srv r).1, none, l ++ [.done (serve w srv r).2]⟩ := by
  cases hh : ServeMux.Handler srv.mux r with
  | NotFoundHandler => exact ⟨[], by simp [exec, arrive, serve, hh]⟩
  | HandlerFunc fn => exact ⟨[], by simp [exec, arrive, serve, hh]⟩
  | RedirectHandler url code => exact ⟨[], by simp [exec, arrive, serve, hh]⟩
  | rootHandler =>
    refine ⟨[l.length, l.length, l.length, l.length], ?_⟩
    simp [exec, arrive, serve, hh, step, goto_last, rootHandler, System.deref]
  | addhandler =>
    rcases build_cases w (r.FormValue "program") with ⟨e, hb⟩ | ⟨path, hb⟩
    · refine ⟨[l.length], ?_⟩
      simp [exec, arrive, serve, hh, step, goto_last, hb,
        addhandler_of_build_error w srv r "" e hb, handleError]
    · cases hl : load w path with
      | error e =>
        refine ⟨[l.length], ?_⟩
        simp [exec, arrive, serve, hh, step, goto_last, hb, hl,
          addhandler_of_load_error w srv r path e hb hl, handleError]
      | ok fn =>
        have hne := build_ok_ne_empty w _ path hb
        cases hg : srv.mux.get path with
        | some hd =>
          refine ⟨[l.length, l.length], ?_⟩
          simp [exec, arrive, serve, hh, step, goto_last, hb, hl,
            addhandler_of_loaded w srv r path fn hb hl, handleError, ServeMux.Handle, hne, hg]
        | none =>
          refine ⟨[l.length, l.length, l.length, l.length, l.length, l.length], ?_⟩
          simp [exec, arrive, serve, hh, step, goto_last, hb, hl,
            addhandler_of_loaded w srv r path fn hb hl, handleError, ServeMux.Handle, hne, hg]

theorem run_reachable (reqs : List (World × Request)) :
    ∃ l, Reachable ⟨run main reqs, none, l⟩ := by
  suffices h : ∀ (srv : Server) (l : List Task), Reachable ⟨srv, none, l⟩ →
      ∃ l', Reachable ⟨run srv reqs, none, l'⟩ from h main [] Reachable.boot
  induction reqs with
  | nil => exact fun srv l h => ⟨l, h⟩
  | cons wr rest ih =>
    obtain ⟨w, r⟩ := wr
    intro srv l h
    obtain ⟨sched, hs⟩ := serve_simulated srv l w r
    exact ih _ _ (reachable_exec sched (Reachable.arrive w r h) hs)

/-! ## Write-once tables in the concurrent system -/

theorem goto_lookup (σ : System) (i j : Nat) (t' t : Task)
    (h : (σ.goto i t').tasks[j]? = some t) :
    (j = i ∧ t = t') ∨ (j ≠ i ∧ σ.tasks[j]? = some t) := by
  simp only [System.goto, List.getElem?_set] at h
  by_cases hij : i = j
  · subst hij
    simp only [if_true] at h
    by_cases hlt : i < σ.tasks.length
    · simp only [hlt, if_true, Option.some.injEq] at h
      exact Or.inl ⟨rfl, h.symm⟩
    · simp [hlt] at h
  · simp only [hij, if_false] at h
    exact Or.inr ⟨fun h' => hij h'.symm, h⟩

theorem PendingInv_goto (σ : System) (i : Nat) (t0 t' : Task) (h : PendingInv σ)
    (ht : σ.tasks[i]? = some t0)
    (hreg : ∀ p, t'.registered = some p → t0.registered = some p) :
    PendingInv (σ.goto i t') := by
  refine ⟨?_, ?_⟩
  · intro j t p hj hp
    rcases goto_lookup σ i j t' t hj with ⟨-, ht'⟩ | ⟨-, hold⟩
    · subst ht'
      exact h.fresh i t0 p ht (hreg p hp)
    · exact h.fresh j t p hold hp
  · intro j k t t2 p hj hk hp hp2
    rcases goto_lookup σ i j t' t hj with ⟨hji, ht'⟩ | ⟨hji, hold⟩
    · rcases goto_lookup σ i k t' t2 hk with ⟨hki, -⟩ | ⟨-, hold2⟩
      · rw [hji, hki]
      · subst ht'
        rw [hji]
        exact h.distinct i k t0 t2 p ht hold2 (hreg p hp) hp2
    · rcases goto_lookup σ i k t' t2 hk with ⟨hki, ht2⟩ | ⟨-, hold2⟩
      · subst ht2
        rw [hki]
        exact h.distinct j i t t0 p hold ht hp (hreg p hp2)
      · exact h.distinct j k t t2 p hold hold2 hp hp2

theorem PendingInv_lock (σ : System) (l : Option Nat) (h : PendingInv σ) :
    PendingInv { σ with lock := l } :=
  ⟨h.fresh, h.distinct⟩

theorem PendingInv_boot : PendingInv boot :=
  ⟨fun i t p h => by simp [boot] at h, fun i j t t' p h => by simp [boot] at h⟩

theorem arrive_lookup (σ : System) (w : World) (r : Request) (j : Nat) (t : Task)
    (h : (arrive σ w r).tasks[j]? = some t) :
    σ.tasks[j]? = some t ∨ t.registered = none := by
  simp only [arrive, List.getElem?_append] at h
  by_cases hlt : j < σ.tasks.length
  · simp only [hlt, if_true] at h
    exact Or.inl h
  · right
    simp only [hlt, if_false] at h
    have hmem := List.getElem?_mem h
    simp only [List.mem_singleton] at hmem
    subst hmem
    cases ServeMux.Handler σ.srv.mux r <;> rfl

theorem PendingInv_arrive (σ : System) (w : World) (r : Request) (h : PendingInv σ) :
    PendingInv (arrive σ w r) := by
  refine ⟨?_, ?_⟩
  · intro j t p hj hp
    rcases arrive_lookup σ w r j t hj with hold | hnone
    · exact h.fresh j t p hold hp
    · rw [hnone] at hp
      exact absurd hp (by simp)
  · intro j k t t2 p hj hk hp hp2
    rcases arrive_lookup σ w r j t hj with hold | hnone
    · rcases arrive_lookup σ w r k t2 hk with hold2 | hnone2
      · exact h.distinct j k t t2 p hold hold2 hp hp2
      · rw [hnone2] at hp2
        exact absurd hp2 (by simp)
    · rw [hnone] at hp
      exact absurd hp (by simp)

theorem PendingInv_step (i : Nat) (σ σ' : System) (hI : SysInv σ) (h : PendingInv σ)
    (hs : step i σ = some σ') : PendingInv σ' := by
  unfold step at hs
  cases ht : σ.tasks[i]? with
  | none => simp [ht] at hs
  | some t =>
    cases t with
    | addStart w r =>
      simp only [ht] at hs
      rcases build_cases w (r.FormValue "program") with ⟨e, hb⟩ | ⟨path, hb⟩
      · simp only [hb, Option.some.injEq] at hs
        rw [← hs]
        exact PendingInv_goto σ i _ _ h ht (by simp [Task.registered])
      · cases hl : load w path with
        | error e =>
          simp only [hb, hl, Option.some.injEq] at hs
          rw [← hs]
          exact PendingInv_goto σ i _ _ h ht (by simp [Task.registered])
        | ok fn =>
          simp only [hb, hl, Option.some.injEq] at hs
          rw [← hs]
          exact PendingInv_goto σ i _ _ h ht (by simp [Task.registered])
    | addHandle path fn program =>
      simp only [ht] at hs
      cases hk : ServeMux.Handle σ.srv.mux path (.HandlerFunc fn) with
      | error msg =>
        simp only [hk, Option.some.injEq] at hs
        rw [← hs]
        exact PendingInv_goto σ i _ _ h ht (by simp [Task.registered])
      | ok mux' =>
        simp only [hk, Option.some.injEq] at hs
        obtain ⟨hfresh, -⟩ := Handle_ok _ _ _ _ hk
        have hdata : σ.srv.Data.get path = none := by
          by_contra hne
          exact hI.covered path hne hfresh
        have hother : ∀ (k : Nat) (t2 : Task), σ.tasks[k]? = some t2 →
            t2.registered ≠ some path := by
          intro k t2 hk2 hp2
          exact hI.pending t2 (List.getElem?_mem hk2) path hp2 hfresh
        rw [← hs]
        refine ⟨?_, ?_⟩
        · intro j t p hj hp
          rcases goto_lookup _ i j _ t hj with ⟨-, ht'⟩ | ⟨-, hold⟩
          · subst ht'
            simp only [Task.registered, Option.some.injEq] at hp
            rw [← hp]
            exact hdata
          · exact h.fresh j t p hold hp
        · intro j k t t2 p hj hk2 hp hp2
          rcases goto_lookup _ i j _ t hj with ⟨hji, ht'⟩ | ⟨hji, hold⟩
          · rcases goto_lookup _ i k _ t2 hk2 with ⟨hki, -⟩ | ⟨-, hold2⟩
            · rw [hji, hki]
            · subst ht'
              simp only [Task.registered, Option.some.injEq] at hp
              rw [← hp] at hp2
              exact absurd hp2 (hother k t2 hold2)
          · rcases goto_lookup _ i k _ t2 hk2 with ⟨hki, ht2⟩ | ⟨-, hold2⟩
            · subst ht2
              simp only [Task.registered, Option.some.injEq] at hp2
              rw [← hp2] at hp
              exact absurd hp (hother j t hold)
            · exact h.distinct j k t t2 p hold hold2 hp hp2
    | addLock path program =>
      simp only [ht] at hs
      by_cases hlock : σ.lock = none
      · simp only [hlock, if_true, Option.some.injEq] at hs
        rw [← hs]
        exact PendingInv_goto _ i _ _ (PendingInv_lock σ _ h) ht (by simp [Task.registered])
      · simp [hlock] at hs
    | addWrite path program =>
      simp only [ht, Option.some.injEq] at hs
      rw [← hs]
      refine ⟨?_, ?_⟩
      · intro j t p hj hp
        rcases goto_lookup _ i j _ t hj with ⟨-, ht'⟩ | ⟨hji, hold⟩
        · subst ht'
          simp [Task.registered] at hp
        · have hne : p ≠ path := by
            intro hpp
            subst hpp
            exact hji (h.distinct j i t _ p hold ht hp rfl)
          show StrMap.get (StrMap.set σ.srv.Data path program) p = none
          rw [StrMap.get_set_ne _ _ _ _ hne]
          exact h.fresh j t p hold hp
      · intro j k t t2 p hj hk2 hp hp2
        rcases goto_lookup _ i j _ t hj with ⟨-, ht'⟩ | ⟨-, hold⟩
        · subst ht'
          simp [Task.registered] at hp
        · rcases goto_lookup _ i k _ t2 hk2 with ⟨-, ht2⟩ | ⟨-, hold2⟩
          · subst ht2
            simp [Task.registered] at hp2
          · exact h.distinct j k t t2 p hold hold2 hp hp2
    | addUnlock path =>
      simp only [ht, Option.some.injEq] at hs
      rw [← hs]
      exact PendingInv_goto _ i _ _ (PendingInv_lock σ _ h) ht (by simp [Task.registered])
    | addRedirect path =>
      simp only [ht, Option.some.injEq] at hs
      rw [← hs]
      exact PendingInv_goto _ i _ _ h ht (by simp [Task.registered])
    | rootLock w =>
      simp only [ht] at hs
      by_cases hlock : σ.lock = none
      · simp only [hlock, if_true, Option.some.injEq] at hs
        rw [← hs]
        exact PendingInv_goto _ i _ _ (PendingInv_lock σ _ h) ht (by simp [Task.registered])
      · simp [hlock] at hs
    | rootCopy w =>
      simp only [ht, Option.some.injEq] at hs
      rw [← hs]
      exact PendingInv_goto _ i _ _ h ht (by simp [Task.registered])
    | rootUnlock w data =>
      simp only [ht, Option.some.injEq] at hs
      rw [← hs]
      exact PendingInv_goto _ i _ _ (PendingInv_lock σ _ h) ht (by simp [Task.registered])
    | rootRender w data =>
      simp only [ht, Option.some.injEq] at hs
      rw [← hs]
      exact PendingInv_goto _ i _ _ h ht (by simp [Task.registered])
    | done resp => simp [ht] at hs

theorem PendingInv_of_reachable (σ : System) (h : Reachable σ) : PendingInv σ := by
  induction h with
  | boot => exact PendingInv_boot
  | arrive w r _ ih => exact PendingInv_arrive _ w r ih
  | step i hr hs ih => exact PendingInv_step i _ _ (SysInv_of_reachable _ hr) ih hs

theorem step_preserves (i : Nat) (σ σ' : System) (h : PendingInv σ)
    (hs : step i σ = some σ') :
    (∀ p src, σ.srv.Data.get p = some src → σ'.srv.Data.get p = some src) ∧
    (∀ p hd, σ.srv.mux.get p = some hd → σ'.srv.mux.get p = some hd) := by
  have hid : ∀ τ : System, τ.srv = σ.srv →
      (∀ p src, σ.srv.Data.get p = some src → τ.srv.Data.get p = some src) ∧
      (∀ p hd, σ.srv.mux.get p = some hd → τ.srv.mux.get p = some hd) := by
    intro τ hτ
    rw [hτ]
    exact ⟨fun _ _ h => h, fun _ _ h => h⟩
  unfold step at hs
  cases ht : σ.tasks[i]? with
  | none => simp [ht] at hs
  | some t =>
    cases t with
    | addStart w r =>
      simp only [ht] at hs
      rcases build_cases w (r.FormValue "program") with ⟨e, hb⟩ | ⟨path, hb⟩
      · simp only [hb, Option.some.injEq] at hs
        exact hid σ' (by rw [← hs]; rfl)
      · cases hl : load w path with
        | error e =>
          simp only [hb, hl, Option.some.injEq] at hs
          exact hid σ' (by rw [← hs]; rfl)
        | ok fn =>
          simp only [hb, hl, Option.some.injEq] at hs
          exact hid σ' (by rw [← hs]; rfl)
    | addHandle path fn program =>
      simp only [ht] at hs
      cases hk : ServeMux.Handle σ.srv.mux path (.HandlerFunc fn) with
      | error msg =>
        simp only [hk, Option.some.injEq] at hs
        exact hid σ' (by rw [← hs]; rfl)
      | ok mux' =>
        simp only [hk, Option.some.injEq] at hs
        obtain ⟨hfresh, hmux⟩ := Handle_ok _ _ _ _ hk
        rw [← hs]
        refine ⟨fun _ _ h => h, ?_⟩
        intro p hd hp
        show StrMap.get mux' p = some hd
        rw [hmux]
        exact StrMap.get_set_mono _ _ _ _ _ hfresh hp
    | addLock path program =>
      simp only [ht] at hs
      by_cases hlock : σ.lock = none
      · simp only [hlock, if_true, Option.some.injEq] at hs
        exact hid σ' (by rw [← hs]; rfl)
      · simp [hlock] at hs
    | addWrite path program =>
      simp only [ht, Option.some.injEq] at hs
      rw [← hs]
      refine ⟨?_, fun _ _ h => h⟩
      intro p src hp
      show StrMap.get (StrMap.set σ.srv.Data path program) p = some src
      exact StrMap.get_set_mono _ _ _ _ _ (h.fresh i _ path ht rfl) hp
    | addUnlock path =>
      simp only [ht, Option.some.injEq] at hs
      exact hid σ' (by rw [← hs]; rfl)
    | addRedirect path =>
      simp only [ht, Option.some.injEq] at hs
      exact hid σ' (by rw [← hs]; rfl)
    | rootLock w =>
      simp only [ht] at hs
      by_cases hlock : σ.lock = none
      · simp only [hlock, if_true, Option.some.injEq] at hs
        exact hid σ' (by rw [← hs]; rfl)
      · simp [hlock] at hs
    | rootCopy w =>
      simp only [ht, Option.some.injEq] at hs
      exact hid σ' (by rw [← hs]; rfl)
    | rootUnlock w data =>
      simp only [ht, Option.some.injEq] at hs
      exact hid σ' (by rw [← hs]; rfl)
    | rootRender w data =>
      simp only [ht, Option.some.injEq] at hs
      exact hid σ' (by rw [← hs]; rfl)
    | done resp => simp [ht] at hs

theorem reachable_steps (σ σ' : System) (h : Reachable σ) (hs : Steps σ σ') : Reachable σ' := by
  induction hs with
  | refl => exact h
  | arrive w r _ ih => exact Reachable.arrive w r ih
  | step i _ hstep ih => exact Reachable.step i ih hstep

theorem steps_preserve (σ σ' : System) (h : Reachable σ) (hs : Steps σ σ') :
    (∀ p src, σ.srv.Data.get p = some src → σ'.srv.Data.get p = some src) ∧
    (∀ p hd, σ.srv.mux.get p = some hd → σ'.srv.mux.get p = some hd) := by
  induction hs with
  | refl => exact ⟨fun _ _ h => h, fun _ _ h => h⟩
  | arrive w r _ ih => exact ih
  | step i hprev hstep ih =>
    have hp := PendingInv_of_reachable _ (reachable_steps _ _ h hprev)
    have h2 := step_preserves i _ _ hp hstep
    exact ⟨fun p src hg => h2.1 p src (ih.1 p src hg), fun p hd hg => h2.2 p hd (ih.2 p hd hg)⟩

theorem steps_exec {σ σ1 σ2 : System} (sched : List Nat) (h : Steps σ σ1)
    (he : exec sched σ1 = some σ2) : Steps σ σ2 := by
  induction sched generalizing σ1 with
  | nil =>
    simp only [exec, Option.some.injEq] at he
    rw [← he]
    exact h
  | cons i rest ih =>
    simp only [exec] at he
    cases hs : step i σ1 with
    | none => simp [hs] at he
    | some σ3 =>
      simp only [hs] at he
      exact ih (Steps.step i h hs) he

/-- C4: entries of the Registry and of the Router are write-once.  From every state the
running server can reach, whatever requests arrive and whatever actions tasks take later
(whatever paths the builds return, a registered path included), each pair of path and
source in the Registry is still there with the same source, and each path mapped to a
handler by the Router is still mapped to the same handler. -/
theorem entries_write_once (σ σ' : System) (h : Reachable σ) (hs : Steps σ σ') :
    (∀ p src, σ.srv.Data.get p = some src → σ'.srv.Data.get p = some src) ∧
    (∀ p hd, σ.srv.mux.get p = some hd → σ'.srv.mux.get p = some hd) :=
  steps_preserve σ σ' h hs

theorem entries_write_once_witness :
    System.resubmitted.srv.Data.get samplePath = some "package main" ∧
    System.resubmitted.srv.mux.get samplePath = some (.HandlerFunc 7) :=
  have h := entries_write_once System.registered System.resubmitted
    (reachable_exec [0, 0, 0, 0, 0, 0]
      (Reachable.arrive (World.good "/tmp/addhandler1" 7) (Request.submit "package main")
        Reachable.boot)
      (rfl : exec [0, 0, 0, 0, 0, 0] System.submitting = some System.registered))
    (steps_exec [1, 1]
      (Steps.arrive (World.good "/tmp/addhandler1" 8) (Request.submit "package other")
        (Steps.refl System.registered))
      (rfl : exec [1, 1] (arrive System.registered (World.good "/tmp/addhandler1" 8)
        (Request.submit "package other")) = some System.resubmitted))
  ⟨h.1 samplePath "package main" rfl, h.2 samplePath (.HandlerFunc 7) rfl⟩

end Addhandler
